import Mathlib

/-!
# Verification of the cibola JSON parser (`src/json.rs`, `src/parse.rs`)

Shallow embedding of the parser in `src/parse.rs`.  The Rust code keeps a
byte buffer `bytes : &[u8]` and a cursor `index : usize`, and every read is
at or after the cursor; we therefore represent the parser state by the list
of bytes that remain at the cursor (`index = i` corresponds to the suffix
`bytes[i..]`).  Bytes are modelled as `Nat` (values below 256; the code only
compares bytes, never does wrapping arithmetic).  Rust `String` values are
modelled as their byte lists.  `HashMap<String, JSONValue>` is modelled as an
association list together with the insertion function `insertField`, which
overwrites an existing key (`HashMap::insert`: last write wins) and appends a
fresh key.

Each parsing function returns a `POut`:
* `.ok a rest` — success, with the bytes remaining after the consumed input;
* `.err e`     — a returned `Err(e)` (the `Error` enum of the source);
* `.panicked`  — a Rust panic (the out-of-range slice in `eat_str`);
* `.spin`      — fuel exhaustion of the embedding's fuel counter only.

The mutually recursive grammar functions (`value`, `object`, `array`, the
field/element loops) take a fuel argument, decreased at every `value` entry
and every loop iteration; `parse` supplies `2 * length + 4` fuel, which is
shown sufficient for the inputs appearing in the theorems below.
-/

namespace Cibola

/-- The `Error` enum of `src/parse.rs` (lines 54-63). -/
inductive PError where
  | endOfStream
  | unexpectedCharacter (line : Nat) (col : Nat) (token : Char)
  | invalidJSON

/-- The constant error built by `ParseContext::fail` (lines 92-107): `line`
and `col` are initialised to `0` and never updated, and `token` is the
literal space character. -/
def failE : PError := .unexpectedCharacter 0 0 ' '

/-- The exact decimal value `mantissa * 10 ^ exp10` of a numeric literal.
This is the embedding's stand-in for `f64`: the strict string-to-double
conversion is abstracted to the exact value it converts (no claim below
compares numbers produced from different literal spellings, so the
non-normalized representation is canonical per literal). -/
structure JNum where
  mantissa : Int
  exp10 : Int

/-- The `JSONValue` enum of `src/json.rs` (lines 13-21).  `Object` is an
association list standing for the `HashMap` (built by `insertField`),
`Text` is the byte list of the Rust `String`, and `Number` holds the exact
decimal value of the converted literal (the `f64` rounding of
`lexical_core` is abstracted away, see `jsonNumVal`). -/
inductive JSONValue where
  | object (fields : List (List Nat × JSONValue))
  | array (vals : List JSONValue)
  | bool (b : Bool)
  | text (s : List Nat)
  | number (n : JNum)
  | null

/-- `HashMap::insert` on the association-list model: overwrite the first
binding of an existing key, append a fresh key. -/
def insertField : List (List Nat × JSONValue) → List Nat → JSONValue →
    List (List Nat × JSONValue)
  | [], k, v => [(k, v)]
  | (k', v') :: t, k, v =>
      if k' = k then (k, v) :: t else (k', v') :: insertField t k v

/-- Outcome of one parsing function: success with the remaining input, a
returned error, a Rust panic, or fuel exhaustion of the embedding. -/
inductive POut (α : Type) where
  | ok (a : α) (rest : List Nat)
  | err (e : PError)
  | panicked
  | spin

/-- Sequencing of parser outcomes (Rust `?` / explicit match propagation). -/
def POut.bind {α β : Type} : POut α → (α → List Nat → POut β) → POut β
  | .ok a rest, f => f a rest
  | .err e, _ => .err e
  | .panicked, _ => .panicked
  | .spin, _ => .spin

/-- The whitespace bytes skipped by `skip_control_chars` (lines 124-132):
`\n`, `\r`, `\t`, space. -/
def isWS (b : Nat) : Bool := b = 0x0A || b = 0x0D || b = 0x09 || b = 0x20

/-- ASCII digit `0`-`9`. -/
def isDigitB (b : Nat) : Bool := 0x30 ≤ b && b ≤ 0x39

/-- The byte set scanned by `number` (line 373): `0`-`9`, `-`, `.`, `e`,
`E`.  Note that `+` (0x2B) is not in the set. -/
def isNumByte (b : Nat) : Bool :=
  isDigitB b || b = 0x2D || b = 0x2E || b = 0x65 || b = 0x45

/-- The escape translation of `eat_buffered_until` (lines 227-238):
`\"`, `\\`, `\/`, `\b`, `\f`, `\n`, `\r`, `\t`; anything else is
unrecognized (`none`). -/
def escByte (c : Nat) : Option Nat :=
  if c = 0x22 then some 0x22
  else if c = 0x5C then some 0x5C
  else if c = 0x2F then some 0x2F
  else if c = 0x62 then some 0x08
  else if c = 0x66 then some 0x0C
  else if c = 0x6E then some 0x0A
  else if c = 0x72 then some 0x0D
  else if c = 0x74 then some 0x09
  else none

/-- Numeric value of a digit run (most significant first). -/
def digitsVal (l : List Nat) : Nat := l.foldl (fun acc b => acc * 10 + (b - 0x30)) 0

/-- Modelled from the spec: `lexical_core::try_atof64_slice` (line 379), the
"standard strict string-to-double conversion" of an exact substring.  The
crate is not part of this repository, so the conversion is modelled from the
spec's numeric grammar — optional leading `-`, mandatory integer digits,
optional `.` followed by mandatory digits, optional `e`/`E` followed by an
optional `-`/`+` sign and mandatory digits, and nothing else — and the
nearest-`f64` rounding is abstracted to the exact decimal value
`mantissa * 10 ^ exp10`. -/
def jsonNumVal (l : List Nat) : Option JNum :=
  let (neg, l₁) : Bool × List Nat :=
    match l with
    | 0x2D :: t => (true, t)
    | _ => (false, l)
  let ds := l₁.takeWhile isDigitB
  let l₂ := l₁.drop ds.length
  if ds.isEmpty then none else
  let (fds, l₃) : List Nat × List Nat :=
    match l₂ with
    | 0x2E :: t => (t.takeWhile isDigitB, t.drop (t.takeWhile isDigitB).length)
    | _ => ([], l₂)
  if l₂.head? = some 0x2E ∧ fds.isEmpty then none else
  let mant : Int := (if neg then -1 else 1) * (digitsVal (ds ++ fds) : Int)
  match l₃ with
  | [] => some ⟨mant, -(fds.length : Int)⟩
  | e :: l₄ =>
      if e = 0x65 ∨ e = 0x45 then
        let (esgn, l₅) : Bool × List Nat :=
          match l₄ with
          | 0x2D :: t => (true, t)
          | 0x2B :: t => (false, t)
          | _ => (false, l₄)
        let eds := l₅.takeWhile isDigitB
        if eds.isEmpty ∨ l₅.drop eds.length ≠ [] then none else
        let ev : Int := (if esgn then -1 else 1) * (digitsVal eds : Int)
        some ⟨mant, ev - (fds.length : Int)⟩
      else none

/-- `current_byte` (lines 116-122): the byte at the cursor, or
`EndOfStream`. -/
def current_byte : List Nat → Except PError Nat
  | [] => .error .endOfStream
  | b :: _ => .ok b

/-- `skip_control_chars` (lines 124-132): advance the cursor over
whitespace bytes. -/
def skip_control_chars : List Nat → List Nat
  | [] => []
  | b :: t => if isWS b then skip_control_chars t else b :: t

/-- `skip_comma` (lines 142-146): consume one `,` if the cursor is on
one. -/
def skip_comma : List Nat → List Nat
  | [] => []
  | b :: t => if b = 0x2C then t else b :: t

/-- `eat` (lines 149-159): consume one expected byte. -/
def eat (token : Nat) : List Nat → POut Unit
  | [] => .err .endOfStream
  | b :: t => if b = token then .ok () t else .err failE

/-- `eat_str` (lines 162-171): compare `match_bytes` against the slice
`bytes[index .. index + len]`.  Rust slicing panics when the end runs past
the buffer, which this models by `.panicked`; on a mismatch within bounds,
`fail()` is returned. -/
def eat_str (ms : List Nat) (s : List Nat) : POut Unit :=
  if ms.length ≤ s.length then
    (if s.take ms.length = ms then .ok () (s.drop ms.length) else .err failE)
  else .panicked

/-- `eat_buffered_until` (lines 211-254): byte-wise copy into an owned
buffer, translating recognized escapes and failing (with the constant
`fail()` error) on an unrecognized escape byte.  Returns the buffer and the
remaining input (the end `token` is not consumed). -/
def eat_buffered_until (token : Nat) : List Nat → Except PError (List Nat × List Nat)
  | [] => .error .endOfStream
  | b :: t =>
      if b = token then .ok ([], b :: t)
      else if b = 0x5C then
        match t with
        | [] => .error .endOfStream
        | c :: t' =>
            match escByte c with
            | some e =>
                match eat_buffered_until token t' with
                | .ok (s, r) => .ok (e :: s, r)
                | .error e' => .error e'
            | none => .error failE
      else
        match eat_buffered_until token t with
        | .ok (s, r) => .ok (b :: s, r)
        | .error e' => .error e'

/-- `eat_until` (lines 174-209): scan forward to the end `token`.  On the
fast path (no backslash before the token) the scanned span is returned via
`.to_owned()` — an owned copy, recorded by the `Bool` component, which is
`true` whenever the source allocates an independently owned buffer for the
result (`to_owned` on the fast path, `Vec::from`/buffering on the escape
path).  On a backslash the already-scanned bytes become the initial buffer
and scanning continues in `eat_buffered_until`. -/
def eat_until (token : Nat) : List Nat → POut (List Nat × Bool)
  | [] => .err .endOfStream
  | b :: t =>
      if b = token then .ok ([], true) (b :: t)
      else if b = 0x5C then
        match eat_buffered_until token (b :: t) with
        | .ok (s, r) => .ok (s, true) r
        | .error e => .err e
      else
        match eat_until token t with
        | .ok (s, al) r => .ok (b :: s, al) r
        | .err e => .err e
        | .panicked => .panicked
        | .spin => .spin

/-- `string` (lines 352-358): a quoted string literal. -/
def string (s : List Nat) : POut (List Nat) :=
  (eat 0x22 s).bind fun _ s₁ =>
    (eat_until 0x22 s₁).bind fun p s₂ =>
      (eat 0x22 s₂).bind fun _ s₃ => .ok p.1 s₃

/-- `text` (lines 361-364): a `Text` value. -/
def text (s : List Nat) : POut JSONValue :=
  (string s).bind fun st r => .ok (.text st) r

/-- `number` (lines 367-386): scan the maximal run of bytes from
`isNumByte`, then hand exactly that substring to the checked conversion;
conversion failure produces the `fail()` error (the cursor stays after the
run either way, which is irrelevant on the error path). -/
def number (s : List Nat) : POut JSONValue :=
  let run := s.takeWhile isNumByte
  match jsonNumVal run with
  | some q => .ok (.number q) (s.drop run.length)
  | none => .err failE

/-- `object_field` (lines 296-309): a quoted identifier, `:`, and a value
(`pv` is the `value` parser at the current fuel). -/
def object_field (pv : List Nat → POut JSONValue) (s : List Nat) :
    POut (List Nat × JSONValue) :=
  (string (skip_control_chars s)).bind fun k s₁ =>
    (eat 0x3A (skip_control_chars s₁)).bind fun _ s₂ =>
      (pv s₂).bind fun v s₃ => .ok (k, v) s₃

/-- The loop of `object_fields` (lines 278-289): parse a field, insert it,
then look ahead (after whitespace) for `}` to stop. -/
def object_fields_go (pv : List Nat → POut JSONValue) :
    Nat → List (List Nat × JSONValue) → List Nat → POut (List (List Nat × JSONValue))
  | 0, _, _ => .spin
  | fuel + 1, acc, s =>
      (object_field pv s).bind fun kv s₁ =>
        let acc' := insertField acc kv.1 kv.2
        match skip_control_chars s₁ with
        | [] => .err .endOfStream
        | b :: t =>
            if b = 0x7D then .ok acc' (b :: t)
            else object_fields_go pv fuel acc' (b :: t)

/-- `object_fields` (lines 270-293): empty object on an immediate `}`,
otherwise the field loop. -/
def object_fields (pv : List Nat → POut JSONValue) (fuel : Nat) :
    List Nat → POut (List (List Nat × JSONValue))
  | [] => .err .endOfStream
  | b :: t =>
      if b = 0x7D then .ok [] (b :: t)
      else object_fields_go pv fuel [] (b :: t)

/-- `object` (lines 257-267): `{`, the fields, `}`. -/
def object (pv : List Nat → POut JSONValue) (fuel : Nat) (s : List Nat) :
    POut JSONValue :=
  (eat 0x7B (skip_control_chars s)).bind fun _ s₁ =>
    (object_fields pv fuel (skip_control_chars s₁)).bind fun fs s₂ =>
      (eat 0x7D (skip_control_chars s₂)).bind fun _ s₃ => .ok (.object fs) s₃

/-- The loop of `array_values` (lines 334-345): parse a value, push it,
then look ahead (after whitespace) for `]` to stop. -/
def array_values_go (pv : List Nat → POut JSONValue) :
    Nat → List JSONValue → List Nat → POut (List JSONValue)
  | 0, _, _ => .spin
  | fuel + 1, acc, s =>
      (pv s).bind fun v s₁ =>
        let acc' := acc ++ [v]
        match skip_control_chars s₁ with
        | [] => .err .endOfStream
        | b :: t =>
            if b = 0x5D then .ok acc' (b :: t)
            else array_values_go pv fuel acc' (b :: t)

/-- `array_values` (lines 326-349): empty array on an immediate `]`,
otherwise the element loop. -/
def array_values (pv : List Nat → POut JSONValue) (fuel : Nat) :
    List Nat → POut (List JSONValue)
  | [] => .err .endOfStream
  | b :: t =>
      if b = 0x5D then .ok [] (b :: t)
      else array_values_go pv fuel [] (b :: t)

/-- `array` (lines 312-323): `[`, the values, `]`. -/
def array (pv : List Nat → POut JSONValue) (fuel : Nat) (s : List Nat) :
    POut JSONValue :=
  (eat 0x5B (skip_control_chars s)).bind fun _ s₁ =>
    (array_values pv fuel (skip_control_chars s₁)).bind fun vs s₂ =>
      (eat 0x5D (skip_control_chars s₂)).bind fun _ s₃ => .ok (.array vs) s₃

/-- The literal `true` as bytes. -/
def trueLit : List Nat := [0x74, 0x72, 0x75, 0x65]

/-- The literal `false` as bytes. -/
def falseLit : List Nat := [0x66, 0x61, 0x6C, 0x73, 0x65]

/-- The literal `null` as bytes. -/
def nullLit : List Nat := [0x6E, 0x75, 0x6C, 0x6C]

/-- `value` (lines 389-420): skip whitespace, dispatch on one lookahead
byte, and after the dispatched production skip whitespace and at most one
trailing comma ("commas may trail").  In the source an `Err` result flows
through the two trailing skips before being returned; since an error result
carries no cursor, that is observationally the same as propagating it
directly, which is how `POut.bind` models it. -/
def value : Nat → List Nat → POut JSONValue
  | 0, _ => .spin
  | fuel + 1, s =>
      (match skip_control_chars s with
        | [] => POut.err .endOfStream
        | b :: t =>
            if isDigitB b || b = 0x2D then number (b :: t)
            else if b = 0x74 then (eat_str trueLit (b :: t)).bind fun _ r => .ok (.bool true) r
            else if b = 0x66 then (eat_str falseLit (b :: t)).bind fun _ r => .ok (.bool false) r
            else if b = 0x6E then (eat_str nullLit (b :: t)).bind fun _ r => .ok .null r
            else if b = 0x22 then text (b :: t)
            else if b = 0x5B then array (value fuel) fuel (b :: t)
            else if b = 0x7B then object (value fuel) fuel (b :: t)
            else .err failE).bind fun v r =>
        .ok v (skip_comma (skip_control_chars r))

/-- Fuel supplied by the entry point: ample for any terminating run on the
given input (one unit per `value` entry and per loop iteration). -/
def fuelFor (s : List Nat) : Nat := 2 * s.length + 4

/-- `parse` (lines 83-90) and `json::from_str` (json.rs lines 7-11): run
`value` and accept only an `Object` or `Array` root; any other `Ok` root and
any returned error becomes `InvalidJSON`.  A panic unwinds past the match. -/
def parse (s : List Nat) : POut JSONValue :=
  match value (fuelFor s) s with
  | .ok (.object fs) r => .ok (.object fs) r
  | .ok (.array vs) r => .ok (.array vs) r
  | .ok _ _ => .err .invalidJSON
  | .err _ => .err .invalidJSON
  | .panicked => .panicked
  | .spin => .spin

/-! ## Escape-sequence modelling for the string-literal claims

A string-literal body is described as a list of `EscItem`s: either a plain
byte (neither `"` nor `\`) or a two-byte escape sequence `\c`. -/

/-- One item of a string-literal body: a literal byte or an escape pair. -/
inductive EscItem where
  | lit (b : Nat)
  | esc (c : Nat)

/-- The bytes an item occupies in the input text. -/
def renderItem : EscItem → List Nat
  | .lit b => [b]
  | .esc c => [0x5C, c]

/-- The bytes a literal body occupies in the input text. -/
def renderItems : List EscItem → List Nat
  | [] => []
  | it :: t => renderItem it ++ renderItems t

/-- The parsed bytes the claims expect: each escape replaced by its
single-byte equivalent, literal bytes kept in order. -/
def unescItems : List EscItem → List Nat
  | [] => []
  | .lit b :: t => b :: unescItems t
  | .esc c :: t => (escByte c).getD 0 :: unescItems t

/-- Validity of an item: a literal byte is neither the closing quote nor a
backslash, and an escape byte is in the recognized set. -/
def itemOK : EscItem → Bool
  | .lit b => !(b = 0x22) && !(b = 0x5C)
  | .esc c => (escByte c).isSome

/-- `eat_buffered_until` walks a rendered body: it translates it item by
item and continues on whatever follows. -/
theorem eat_buffered_until_items (items : List EscItem) (hok : items.all itemOK = true)
    (X : List Nat) :
    eat_buffered_until 0x22 (renderItems items ++ X)
      = match eat_buffered_until 0x22 X with
        | .ok (s, r) => .ok (unescItems items ++ s, r)
        | .error e => .error e := by
  induction items with
  | nil =>
      cases h : eat_buffered_until 0x22 X with
      | ok p => cases p with | mk s r => simp [renderItems, unescItems, h]
      | error e => simp [renderItems, unescItems, h]
  | cons it t ih =>
      have hit : itemOK it = true := by
        have := List.all_eq_true.mp hok it (List.mem_cons_self it t)
        exact this
      have ht : t.all itemOK = true := by
        apply List.all_eq_true.mpr
        intro x hx
        exact List.all_eq_true.mp hok x (List.mem_cons_of_mem it hx)
      cases it with
      | lit b =>
          have hb : ¬(b = 0x22) ∧ ¬(b = 0x5C) := by
            simp [itemOK] at hit
            exact ⟨hit.1, hit.2⟩
          simp only [renderItems, renderItem, List.cons_append, List.nil_append,
            List.append_assoc]
          rw [eat_buffered_until.eq_def]
          simp only [if_neg hb.1, if_neg hb.2]
          rw [ih ht]
          cases h : eat_buffered_until 0x22 X with
          | ok p => cases p with | mk s r => simp [unescItems]
          | error e => simp
      | esc c =>
          obtain ⟨e, he⟩ : ∃ e, escByte c = some e := by
            rw [itemOK, Option.isSome_iff_exists] at hit
            exact hit
          simp only [renderItems, renderItem, List.cons_append, List.nil_append,
            List.append_assoc]
          rw [eat_buffered_until.eq_def]
          simp only [show ((0x5C : Nat) = 0x22) = False from by simp, if_false, if_pos rfl,
            ite_false, ite_true]
          rw [he, ih ht]
          cases h : eat_buffered_until 0x22 X with
          | ok p => cases p with | mk s r => simp [unescItems, he]
          | error e' => simp

/-- `eat_until` on a rendered body followed by the closing quote succeeds
with the unescaped bytes, always with an owned buffer. -/
theorem eat_until_items (items : List EscItem) (hok : items.all itemOK = true)
    (rest : List Nat) :
    eat_until 0x22 (renderItems items ++ 0x22 :: rest)
      = .ok (unescItems items, true) (0x22 :: rest) := by
  induction items with
  | nil =>
      rw [renderItems, List.nil_append, eat_until.eq_def]
      simp [unescItems]
  | cons it t ih =>
      have hit : itemOK it = true := List.all_eq_true.mp hok it (List.mem_cons_self it t)
      have ht : t.all itemOK = true := by
        apply List.all_eq_true.mpr
        intro x hx
        exact List.all_eq_true.mp hok x (List.mem_cons_of_mem it hx)
      cases it with
      | lit b =>
          have hb : ¬(b = 0x22) ∧ ¬(b = 0x5C) := by
            simp [itemOK] at hit
            exact ⟨hit.1, hit.2⟩
          simp only [renderItems, renderItem, List.cons_append, List.nil_append,
            List.append_assoc]
          rw [eat_until.eq_def]
          simp only [if_neg hb.1, if_neg hb.2]
          rw [ih ht]
          simp [unescItems]
      | esc c =>
          obtain ⟨e, he⟩ : ∃ e, escByte c = some e := by
            rw [itemOK, Option.isSome_iff_exists] at hit
            exact hit
          simp only [renderItems, renderItem, List.cons_append, List.nil_append,
            List.append_assoc]
          rw [eat_until.eq_def]
          simp only [show ((0x5C : Nat) = 0x22) = False from by simp, if_false, ite_false,
            ite_true, if_pos rfl]
          have hb := eat_buffered_until_items (.esc c :: t) (by
            apply List.all_eq_true.mpr
            intro x hx
            cases List.mem_cons.mp hx with
            | inl hx' => subst hx'; rw [itemOK, he]; rfl
            | inr hx' => exact List.all_eq_true.mp ht x hx') (0x22 :: rest)
          simp only [renderItems, renderItem, List.cons_append, List.nil_append,
            List.append_assoc] at hb
          rw [show eat_buffered_until 0x22 (0x22 :: rest) = .ok ([], 0x22 :: rest) from by
            rw [eat_buffered_until.eq_def]; simp] at hb
          rw [hb]
          simp [unescItems, he]

/-- `eat_until` on a rendered body followed by an unrecognized escape fails
with the constant `fail()` error. -/
theorem eat_until_items_illegal (items : List EscItem) (hok : items.all itemOK = true)
    (c : Nat) (hc : escByte c = none) (tail : List Nat) :
    eat_until 0x22 (renderItems items ++ 0x5C :: c :: tail) = .err failE := by
  have hbuf : ∀ X : List Nat, X = 0x5C :: c :: tail →
      eat_buffered_until 0x22 X = .error failE := by
    intro X hX
    subst hX
    rw [eat_buffered_until.eq_def]
    simp [hc, show ¬((0x5C : Nat) = 0x22) from by decide]
  induction items with
  | nil =>
      rw [renderItems, List.nil_append, eat_until.eq_def]
      simp only [show ((0x5C : Nat) = 0x22) = False from by simp, if_false, ite_false,
        ite_true, if_pos rfl]
      rw [hbuf _ rfl]
  | cons it t ih =>
      have hit : itemOK it = true := List.all_eq_true.mp hok it (List.mem_cons_self it t)
      have ht : t.all itemOK = true := by
        apply List.all_eq_true.mpr
        intro x hx
        exact List.all_eq_true.mp hok x (List.mem_cons_of_mem it hx)
      cases it with
      | lit b =>
          have hb : ¬(b = 0x22) ∧ ¬(b = 0x5C) := by
            simp [itemOK] at hit
            exact ⟨hit.1, hit.2⟩
          simp only [renderItems, renderItem, List.cons_append, List.nil_append,
            List.append_assoc]
          rw [eat_until.eq_def]
          simp only [if_neg hb.1, if_neg hb.2]
          rw [ih ht]
      | esc c' =>
          obtain ⟨e, he⟩ : ∃ e, escByte c' = some e := by
            rw [itemOK, Option.isSome_iff_exists] at hit
            exact hit
          simp only [renderItems, renderItem, List.cons_append, List.nil_append,
            List.append_assoc]
          rw [eat_until.eq_def]
          simp only [show ((0x5C : Nat) = 0x22) = False from by simp, if_false, ite_false,
            ite_true, if_pos rfl]
          have hb := eat_buffered_until_items (.esc c' :: t) (by
            apply List.all_eq_true.mpr
            intro x hx
            cases List.mem_cons.mp hx with
            | inl hx' => subst hx'; rw [itemOK, he]; rfl
            | inr hx' => exact List.all_eq_true.mp ht x hx') (0x5C :: c :: tail)
          simp only [renderItems, renderItem, List.cons_append, List.nil_append,
            List.append_assoc] at hb
          rw [hbuf _ rfl] at hb
          rw [hb]

/-! ## Claim C5 -/

/-- C5 (confirmed): for every string literal made of literal bytes and the
recognized escape sequences `\"`, `\\`, `\/`, `\b`, `\f`, `\n`, `\r`, `\t`,
the parsed string replaces each two-byte escape with its single-byte
equivalent (0x22, 0x5C, 0x2F, 0x08, 0x0C, 0x0A, 0x0D, 0x09 respectively)
and keeps all other bytes literally and in order. -/
theorem string_unescapes_escapes (items : List EscItem) (hok : items.all itemOK = true)
    (rest : List Nat) :
    string (0x22 :: (renderItems items ++ 0x22 :: rest)) = .ok (unescItems items) rest := by
  rw [string]
  rw [show eat 0x22 (0x22 :: (renderItems items ++ 0x22 :: rest))
      = .ok () (renderItems items ++ 0x22 :: rest) from by rw [eat]; simp]
  rw [POut.bind, eat_until_items items hok rest, POut.bind]
  rw [show eat 0x22 (0x22 :: rest) = .ok () rest from by rw [eat]; simp]
  rfl

/-- Witness for C5 at the literal `"A\nB"`. -/
theorem string_unescapes_escapes_witness :
    string [0x22, 0x41, 0x5C, 0x6E, 0x42, 0x22] = .ok [0x41, 0x0A, 0x42] [] :=
  string_unescapes_escapes [.lit 0x41, .esc 0x6E, .lit 0x42] rfl []

/-! ## Claim C6 -/

/-- Counterexample to C6 as stated: the failure produced by an unrecognized
escape (`\q`) is the constant `UnexpectedCharacter { line: 0, col: 0,
token: ' ' }` built by `fail()` — byte-for-byte the same error value an
ordinary byte mismatch produces.  The source `Error` enum (`EndOfStream`,
`UnexpectedCharacter`, `InvalidJSON`) has no `IllegalEscape` kind at all. -/
theorem illegal_escape_error_not_distinct :
    string [0x22, 0x5C, 0x71, 0x22] = .err (.unexpectedCharacter 0 0 ' ') ∧
    eat 0x3A [0x78] = .err (.unexpectedCharacter 0 0 ' ') :=
  ⟨rfl, rfl⟩

/-- C6 (corrected): for every string literal in which a backslash is
followed by a byte outside the recognized escape set, parsing the string
fails and produces no value — but with the generic `fail()` error
(`UnexpectedCharacter { line: 0, col: 0, token: ' ' }`), not a dedicated
`IllegalEscape` kind, which the code's `Error` enum does not have. -/
theorem string_illegal_escape_fails (items : List EscItem) (hok : items.all itemOK = true)
    (c : Nat) (hc : escByte c = none) (tail : List Nat) :
    string (0x22 :: (renderItems items ++ 0x5C :: c :: tail)) = .err failE := by
  rw [string]
  rw [show eat 0x22 (0x22 :: (renderItems items ++ 0x5C :: c :: tail))
      = .ok () (renderItems items ++ 0x5C :: c :: tail) from by rw [eat]; simp]
  rw [POut.bind, eat_until_items_illegal items hok c hc tail]
  rfl

/-- Witness for C6's amended claim at the literal `"a\qb"`. -/
theorem string_illegal_escape_fails_witness :
    string [0x22, 0x61, 0x5C, 0x71, 0x62, 0x22] = .err failE :=
  string_illegal_escape_fails [.lit 0x61] rfl 0x71 rfl [0x62, 0x22]

/-! ## Claim C1 -/

/-- Counterexample to C1 as stated: on the escape-free literal body `ab`
the fast path of `eat_until` still returns an owned copy — the allocation
marker is `true` (the source's `.to_owned()` on the fast-path return), and
no run returns a borrowed (unallocated) result. -/
theorem eat_until_fast_path_not_zero_copy :
    eat_until 0x22 [0x61, 0x62, 0x22] = .ok ([0x61, 0x62], true) [0x22] ∧
    ¬ ∃ s r, eat_until 0x22 [0x61, 0x62, 0x22] = .ok (s, false) r := by
  refine ⟨rfl, ?_⟩
  rintro ⟨s, r, h⟩
  rw [show eat_until 0x22 [0x61, 0x62, 0x22] = .ok ([0x61, 0x62], true) [0x22] from rfl] at h
  simp at h

/-- C1 (corrected): every successful `eat_until` — fast path or escape
path — returns an independently owned buffer: the fast path copies the
scanned span with `.to_owned()` instead of returning a borrowed slice, so
the allocation marker of the result is always `true`. -/
theorem eat_until_always_owned (token : Nat) (l : List Nat) (s : List Nat) (al : Bool)
    (r : List Nat) (h : eat_until token l = .ok (s, al) r) : al = true := by
  induction l generalizing s al r with
  | nil =>
      rw [eat_until.eq_def] at h
      cases h
  | cons b t ih =>
      rw [show eat_until token (b :: t)
          = (if b = token then .ok ([], true) (b :: t)
             else if b = 0x5C then
               match eat_buffered_until token (b :: t) with
               | .ok (s, r) => .ok (s, true) r
               | .error e => .err e
             else
               match eat_until token t with
               | .ok (s, al) r => .ok (b :: s, al) r
               | .err e => .err e
               | .panicked => .panicked
               | .spin => .spin) from by rw [eat_until.eq_def]] at h
      by_cases h1 : b = token
      · rw [if_pos h1] at h
        cases h
        rfl
      · rw [if_neg h1] at h
        by_cases h2 : b = 0x5C
        · rw [if_pos h2] at h
          cases hb : eat_buffered_until token (b :: t) with
          | ok p =>
              cases p with
              | mk s' r' =>
                  rw [hb] at h
                  cases h
                  rfl
          | error e =>
              rw [hb] at h
              cases h
        · rw [if_neg h2] at h
          cases hu : eat_until token t with
          | ok p r' =>
              cases p with
              | mk s' al' =>
                  rw [hu] at h
                  cases h
                  exact ih _ _ _ hu
          | err e => rw [hu] at h; cases h
          | panicked => rw [hu] at h; cases h
          | spin => rw [hu] at h; cases h

/-- Witness for C1's amended claim at the literal body `a\nb`. -/
theorem eat_until_always_owned_witness :
    eat_until 0x22 [0x61, 0x5C, 0x6E, 0x62, 0x22] = .ok ([0x61, 0x0A, 0x62], true) [0x22] ∧
    true = true :=
  ⟨rfl, eat_until_always_owned 0x22 [0x61, 0x5C, 0x6E, 0x62, 0x22] [0x61, 0x0A, 0x62] true
    [0x22] rfl⟩

/-! ## Claim C2 -/

/-- Whether a value may be a document root (`Object` or `Array`). -/
def isRootValue : JSONValue → Bool
  | .object _ => true
  | .array _ => true
  | _ => false

/-- C2 (confirmed): every successful `parse` returns an `Object` or `Array`
root; when `value` produces any other root variant, or any error (so in
particular when no grammar alternative matches at the root), `parse`
returns the `InvalidJSON` error (the source's name for the spec's
`InvalidDocument`); and the bare scalar input `42` yields exactly that
error. -/
theorem parse_root_object_or_array :
    (∀ s v r, parse s = .ok v r → isRootValue v = true) ∧
    (∀ s v r, value (fuelFor s) s = .ok v r → isRootValue v = false →
      parse s = .err .invalidJSON) ∧
    (∀ s e, value (fuelFor s) s = .err e → parse s = .err .invalidJSON) ∧
    parse [0x34, 0x32] = .err .invalidJSON := by
  refine ⟨?_, ?_, ?_, rfl⟩
  · intro s v r h
    rw [parse] at h
    cases hv : value (fuelFor s) s with
    | ok a r' =>
        rw [hv] at h
        cases a <;> dsimp only at h <;> cases h <;> rfl
    | err e => rw [hv] at h; cases h
    | panicked => rw [hv] at h; cases h
    | spin => rw [hv] at h; cases h
  · intro s v r h hroot
    rw [parse, h]
    cases v <;> simp_all [isRootValue]
  · intro s e h
    rw [parse, h]

/-- Witness for C2 at the inputs `[]` and `42`. -/
theorem parse_root_object_or_array_witness :
    isRootValue (.array []) = true ∧ parse [0x34, 0x32] = .err .invalidJSON :=
  ⟨parse_root_object_or_array.1 [0x5B, 0x5D] (.array []) [] rfl,
    parse_root_object_or_array.2.2.2⟩

/-! ## Claim C3 -/

/-- C3 (code_bug): the truncated literal `tru` at the end of the buffer
makes `eat_str` slice `bytes[index .. index + 4]` past the end of a
3-byte buffer, a Rust panic — not the `EndOfStream` error the claim (and
the spec's error policy) requires. -/
theorem parse_truncated_literal_panics : parse [0x74, 0x72, 0x75] = .panicked := rfl

/-! ## Claim C8 -/

/-- C8 (code_bug): `fail()` builds `UnexpectedCharacter { line: 0, col: 0,
token: ' ' }` from constants (its `line`/`col` locals are initialised to 0
and never updated), so two parses failing at different cursor positions
(offset 0 here, offset 2 there) return identical error values carrying no
position information. -/
theorem fail_error_position_constant :
    value 8 [0x78] = .err (.unexpectedCharacter 0 0 ' ') ∧
    value 8 [0x5B, 0x20, 0x78, 0x5D] = .err (.unexpectedCharacter 0 0 ' ') :=
  ⟨rfl, rfl⟩

/-! ## Claim C9 -/

/-- C9 (confirmed): separating commas are optional.  `[1 2 3]` parses to
the same value as `[1, 2, 3]`, and `{"a": 1 "b": 2}` to the same value as
`{"a": 1, "b": 2}`, because after each parsed value the parser skips at
most one comma if present and otherwise continues. -/
theorem separating_commas_optional :
    parse [0x5B, 0x31, 0x20, 0x32, 0x20, 0x33, 0x5D]
      = .ok (.array [.number ⟨1, 0⟩, .number ⟨2, 0⟩, .number ⟨3, 0⟩]) [] ∧
    parse [0x5B, 0x31, 0x2C, 0x20, 0x32, 0x2C, 0x20, 0x33, 0x5D]
      = .ok (.array [.number ⟨1, 0⟩, .number ⟨2, 0⟩, .number ⟨3, 0⟩]) [] ∧
    parse [0x7B, 0x22, 0x61, 0x22, 0x3A, 0x20, 0x31, 0x20, 0x22, 0x62, 0x22, 0x3A,
        0x20, 0x32, 0x7D]
      = .ok (.object [([0x61], .number ⟨1, 0⟩), ([0x62], .number ⟨2, 0⟩)]) [] ∧
    parse [0x7B, 0x22, 0x61, 0x22, 0x3A, 0x20, 0x31, 0x2C, 0x20, 0x22, 0x62, 0x22, 0x3A,
        0x20, 0x32, 0x7D]
      = .ok (.object [([0x61], .number ⟨1, 0⟩), ([0x62], .number ⟨2, 0⟩)]) [] :=
  ⟨rfl, rfl, rfl, rfl⟩

/-! ## Claim C4 -/

/-- `takeWhile` runs through a prefix all of whose bytes satisfy the
predicate. -/
theorem takeWhile_all_append (p : Nat → Bool) (l r : List Nat) (h : l.all p = true) :
    (l ++ r).takeWhile p = l ++ r.takeWhile p := by
  induction l with
  | nil => simp
  | cons b t ih =>
      have hb : p b = true ∧ t.all p = true := by
        simpa [Bool.and_eq_true] using h
      simp [List.takeWhile_cons, hb.1, ih hb.2]

/-- Counterexample to C4 as stated: `1e+5` matches the JSON numeric
grammar (the modelled strict conversion accepts it, value 1 × 10^5), but
`number` stops scanning before the `+` — which is not in the scanned byte
set — and the conversion of the scanned run `1e` fails, so `number`
returns the `fail()` error instead of the converted value. -/
theorem number_plus_exponent_counterexample :
    jsonNumVal [0x31, 0x65, 0x2B, 0x35] = some ⟨1, 5⟩ ∧
    number [0x31, 0x65, 0x2B, 0x35] = .err (.unexpectedCharacter 0 0 ' ') :=
  ⟨rfl, rfl⟩

/-- C4 (corrected): for every numeric literal accepted by the strict
conversion whose bytes are all drawn from the scanned set
{`0`-`9`, `-`, `.`, `e`, `E`} — which excludes a `+` exponent sign —
`number` scans exactly that maximal run and returns the value of the
strict conversion of that exact substring. -/
theorem number_scan_and_convert (lit rest : List Nat) (n : JNum)
    (hv : jsonNumVal lit = some n) (hall : lit.all isNumByte = true)
    (hrest : rest.takeWhile isNumByte = []) :
    number (lit ++ rest) = .ok (.number n) rest := by
  rw [number]
  simp only [takeWhile_all_append isNumByte lit rest hall, hrest, List.append_nil, hv]
  rw [List.drop_left]

/-- Witness for C4's amended claim at `23.2e-10` followed by `]`. -/
theorem number_scan_and_convert_witness :
    jsonNumVal [0x32, 0x33, 0x2E, 0x32, 0x65, 0x2D, 0x31, 0x30] = some ⟨232, -11⟩ ∧
    number ([0x32, 0x33, 0x2E, 0x32, 0x65, 0x2D, 0x31, 0x30] ++ [0x5D])
      = .ok (.number ⟨232, -11⟩) [0x5D] :=
  ⟨rfl, number_scan_and_convert [0x32, 0x33, 0x2E, 0x32, 0x65, 0x2D, 0x31, 0x30] [0x5D]
    ⟨232, -11⟩ rfl rfl rfl⟩

/-! ## Claim C7: a value grammar, its rendering, and the round-trip

To quantify over "every object or array text" with and without trailing
commas, we render an arbitrary nested value (`JV`) to canonical JSON text
— `renderJV false v` without trailing commas, `renderJV true v` with a
trailing comma before every closing `]`/`}` — and prove the parser maps
both renderings to the same parsed value. -/

mutual
/-- A JSON value to render: single-digit numbers, escape-free strings,
literals, and arbitrarily nested arrays and objects. -/
inductive JV where
  | jnum (d : Nat)
  | jstr (s : List Nat)
  | jtrue
  | jfalse
  | jnull
  | jarr (l : JVList)
  | jobj (l : JVFields)
/-- A list of array elements. -/
inductive JVList where
  | nil
  | cons (v : JV) (t : JVList)
/-- A list of object fields (key, value). -/
inductive JVFields where
  | nil
  | cons (k : List Nat) (v : JV) (t : JVFields)
end

/-- A string-body byte that needs no escaping: not `"`, not `\`. -/
def strByteOK (b : Nat) : Bool := !(b = 0x22) && !(b = 0x5C)

mutual
/-- Render a value to JSON text; `tc` adds a trailing comma before every
closing bracket of a nonempty array/object. -/
def renderJV (tc : Bool) : JV → List Nat
  | .jnum d => [0x30 + d]
  | .jstr s => 0x22 :: (s ++ [0x22])
  | .jtrue => trueLit
  | .jfalse => falseLit
  | .jnull => nullLit
  | .jarr .nil => [0x5B, 0x5D]
  | .jarr (.cons v t) =>
      0x5B :: (renderElems tc (.cons v t) ++ (if tc then [0x2C, 0x5D] else [0x5D]))
  | .jobj .nil => [0x7B, 0x7D]
  | .jobj (.cons k v t) =>
      0x7B :: (renderFields tc (.cons k v t) ++ (if tc then [0x2C, 0x7D] else [0x7D]))
/-- Render comma-separated array elements. -/
def renderElems (tc : Bool) : JVList → List Nat
  | .nil => []
  | .cons v .nil => renderJV tc v
  | .cons v (.cons w t) => renderJV tc v ++ 0x2C :: renderElems tc (.cons w t)
/-- Render comma-separated object fields (`"key":value`). -/
def renderFields (tc : Bool) : JVFields → List Nat
  | .nil => []
  | .cons k v .nil => 0x22 :: (k ++ 0x22 :: 0x3A :: renderJV tc v)
  | .cons k v (.cons k' w t) =>
      0x22 :: (k ++ 0x22 :: 0x3A :: renderJV tc v) ++ 0x2C :: renderFields tc (.cons k' w t)
end

mutual
/-- Validity of a rendered value: digits are single, strings and keys are
escape-free. -/
def okJV : JV → Bool
  | .jnum d => d ≤ 9
  | .jstr s => s.all strByteOK
  | .jtrue => true
  | .jfalse => true
  | .jnull => true
  | .jarr l => okList l
  | .jobj l => okFields l
/-- Validity of array elements. -/
def okList : JVList → Bool
  | .nil => true
  | .cons v t => okJV v && okList t
/-- Validity of object fields. -/
def okFields : JVFields → Bool
  | .nil => true
  | .cons k v t => k.all strByteOK && okJV v && okFields t
end

mutual
/-- The `JSONValue` a rendered value parses to. -/
def embedJV : JV → JSONValue
  | .jnum d => .number ⟨d, 0⟩
  | .jstr s => .text s
  | .jtrue => .bool true
  | .jfalse => .bool false
  | .jnull => .null
  | .jarr l => .array (embedList l)
  | .jobj l => .object (insertAllF [] l)
/-- Elements, in order. -/
def embedList : JVList → List JSONValue
  | .nil => []
  | .cons v t => embedJV v :: embedList t
/-- Fields, accumulated exactly as the parser's loop does: `insertField`
into the accumulator in input order. -/
def insertAllF (acc : List (List Nat × JSONValue)) : JVFields → List (List Nat × JSONValue)
  | .nil => acc
  | .cons k v t => insertAllF (insertField acc k (embedJV v)) t
end

mutual
/-- Fuel needed by `value` on a rendered value. -/
def needJV : JV → Nat
  | .jnum _ => 1
  | .jstr _ => 1
  | .jtrue => 1
  | .jfalse => 1
  | .jnull => 1
  | .jarr l => 1 + needList l
  | .jobj l => 1 + needFields l
/-- Fuel needed by the element loop. -/
def needList : JVList → Nat
  | .nil => 1
  | .cons v t => 1 + needJV v + needList t
/-- Fuel needed by the field loop. -/
def needFields : JVFields → Nat
  | .nil => 1
  | .cons _ v t => 1 + needJV v + needFields t
end

/-- The bytes that may legally follow a rendered value: end of input, a
separating/trailing comma, or a closing bracket. -/
def stopsB : List Nat → Bool
  | [] => true
  | b :: _ => b = 0x2C || b = 0x5D || b = 0x7D

/-- What remains after `value`'s trailing whitespace-and-comma skipping
runs on such a suffix: one leading comma is consumed. -/
def afterValue : List Nat → List Nat
  | 0x2C :: t => t
  | post => post

/-- `skip_control_chars` does not move on a non-whitespace head. -/
theorem skipCC_cons_not {b : Nat} (t : List Nat) (h : isWS b = false) :
    skip_control_chars (b :: t) = b :: t := by
  rw [skip_control_chars]
  simp [h]

/-- `skip_control_chars` does not move on a stopper suffix. -/
theorem skipCC_stops (post : List Nat) (h : stopsB post = true) :
    skip_control_chars post = post := by
  cases post with
  | nil => rfl
  | cons b t =>
      have hb : (b = 0x2C ∨ b = 0x5D) ∨ b = 0x7D := by
        simpa [stopsB] using h
      apply skipCC_cons_not
      rcases hb with ⟨h' | h'⟩ | h' <;> subst h' <;> rfl

/-- `value`'s trailing skips on a stopper suffix leave `afterValue`. -/
theorem skipComma_stops (post : List Nat) (h : stopsB post = true) :
    skip_comma (skip_control_chars post) = afterValue post := by
  rw [skipCC_stops post h]
  cases post with
  | nil => rfl
  | cons b t =>
      have hb : (b = 0x2C ∨ b = 0x5D) ∨ b = 0x7D := by
        simpa [stopsB] using h
      rcases hb with ⟨h' | h'⟩ | h' <;> subst h' <;> rfl

/-- `eat` succeeds on its own token. -/
theorem eat_cons_self (b : Nat) (t : List Nat) : eat b (b :: t) = .ok () t := by
  rw [eat]
  simp

/-- `eat_str` consumes exactly its literal. -/
theorem eat_str_self (ms rest : List Nat) : eat_str ms (ms ++ rest) = .ok () rest := by
  rw [eat_str]
  simp [List.take_left, List.drop_left]

/-- `eat_until` on an escape-free body stops at the quote (still returning
an owned buffer). -/
theorem eat_until_noescape (s : List Nat) (h : s.all strByteOK = true) (rest : List Nat) :
    eat_until 0x22 (s ++ 0x22 :: rest) = .ok (s, true) (0x22 :: rest) := by
  induction s with
  | nil =>
      rw [List.nil_append, eat_until.eq_def]
      simp
  | cons b t ih =>
      have hb : ¬(b = 0x22) ∧ ¬(b = 0x5C) := by
        have := (Bool.and_eq_true _ _).mp ((List.all_cons ..) ▸ h)
        constructor
        · simpa [strByteOK] using ((Bool.and_eq_true _ _).mp this.1).1
        · simpa [strByteOK] using ((Bool.and_eq_true _ _).mp this.1).2
      have ht : t.all strByteOK = true := ((Bool.and_eq_true _ _).mp ((List.all_cons ..) ▸ h)).2
      rw [List.cons_append, eat_until.eq_def]
      simp only [if_neg hb.1, if_neg hb.2]
      rw [ih ht]

/-- `string` on a quoted escape-free body. -/
theorem string_noescape (k : List Nat) (h : k.all strByteOK = true) (rest : List Nat) :
    string (0x22 :: (k ++ 0x22 :: rest)) = .ok k rest := by
  rw [string, eat_cons_self, POut.bind, eat_until_noescape k h rest, POut.bind,
    eat_cons_self, POut.bind]

@[simp]
theorem POut.bind_ok {α β : Type} (a : α) (r : List Nat) (f : α → List Nat → POut β) :
    (POut.ok a r).bind f = f a r := rfl

@[simp]
theorem POut.bind_err {α β : Type} (e : PError) (f : α → List Nat → POut β) :
    (POut.err e).bind f = .err e := rfl

/-- One unfolding of `value` at positive fuel. -/
theorem value_succ (f : Nat) (s : List Nat) :
    value (f + 1) s
      = (match skip_control_chars s with
          | [] => POut.err .endOfStream
          | b :: t =>
              if isDigitB b || b = 0x2D then number (b :: t)
              else if b = 0x74 then (eat_str trueLit (b :: t)).bind fun _ r => .ok (.bool true) r
              else if b = 0x66 then (eat_str falseLit (b :: t)).bind fun _ r => .ok (.bool false) r
              else if b = 0x6E then (eat_str nullLit (b :: t)).bind fun _ r => .ok .null r
              else if b = 0x22 then text (b :: t)
              else if b = 0x5B then array (value f) f (b :: t)
              else if b = 0x7B then object (value f) f (b :: t)
              else .err failE).bind fun v r =>
        .ok v (skip_comma (skip_control_chars r)) := rfl

/-- A single digit is in the scanned numeric byte set. -/
theorem digit_isNumByte (d : Nat) (hd : d ≤ 9) : isNumByte (0x30 + d) = true := by
  simp only [isNumByte, isDigitB, Bool.or_eq_true, Bool.and_eq_true, decide_eq_true_eq]
  omega

/-- A single digit dispatches to `number`. -/
theorem digit_isDigitB (d : Nat) (hd : d ≤ 9) : isDigitB (0x30 + d) = true := by
  simp only [isDigitB, Bool.and_eq_true, decide_eq_true_eq]
  omega

/-- A single digit is not whitespace. -/
theorem digit_not_ws (d : Nat) (hd : d ≤ 9) : isWS (0x30 + d) = false := by
  simp only [isWS, Bool.or_eq_false_iff, decide_eq_false_iff_not]
  omega

/-- Stopper suffixes do not begin with a numeric byte. -/
theorem stops_takeWhile_num (post : List Nat) (h : stopsB post = true) :
    post.takeWhile isNumByte = [] := by
  cases post with
  | nil => rfl
  | cons b t =>
      have hb : (b = 0x2C ∨ b = 0x5D) ∨ b = 0x7D := by
        simpa [stopsB] using h
      rcases hb with ⟨h' | h'⟩ | h' <;> subst h' <;> rfl

/-- `number` on one rendered digit followed by a stopper suffix. -/
theorem number_digit (d : Nat) (hd : d ≤ 9) (post : List Nat) (hpost : stopsB post = true) :
    number ((0x30 + d) :: post) = .ok (.number ⟨d, 0⟩) post := by
  rw [number]
  simp only [List.takeWhile_cons, digit_isNumByte d hd, if_true, stops_takeWhile_num post hpost]
  rw [show jsonNumVal [0x30 + d] = some ⟨(d : Int), 0⟩ from by
    interval_cases d <;> rfl]
  rfl

/-- Every valid rendered value starts with a byte that is not whitespace,
not a comma, and not a closing bracket. -/
theorem renderJV_head (tc : Bool) (v : JV) (hok : okJV v = true) :
    ∃ b bs, renderJV tc v = b :: bs ∧ isWS b = false ∧ ¬(b = 0x2C) ∧ ¬(b = 0x5D) ∧
      ¬(b = 0x7D) := by
  cases v with
  | jnum d =>
      have hd : d ≤ 9 := by simpa [okJV] using hok
      exact ⟨0x30 + d, [], rfl, digit_not_ws d hd, by omega, by omega, by omega⟩
  | jstr s => exact ⟨0x22, s ++ [0x22], rfl, by decide, by decide, by decide, by decide⟩
  | jtrue => exact ⟨0x74, [0x72, 0x75, 0x65], rfl, by decide, by decide, by decide, by decide⟩
  | jfalse =>
      exact ⟨0x66, [0x61, 0x6C, 0x73, 0x65], rfl, by decide, by decide, by decide, by decide⟩
  | jnull => exact ⟨0x6E, [0x75, 0x6C, 0x6C], rfl, by decide, by decide, by decide, by decide⟩
  | jarr l =>
      cases l with
      | nil => exact ⟨0x5B, [0x5D], rfl, by decide, by decide, by decide, by decide⟩
      | cons v t =>
          exact ⟨0x5B, renderElems tc (.cons v t) ++ (if tc then [0x2C, 0x5D] else [0x5D]),
            rfl, by decide, by decide, by decide, by decide⟩
  | jobj l =>
      cases l with
      | nil => exact ⟨0x7B, [0x7D], rfl, by decide, by decide, by decide, by decide⟩
      | cons k v t =>
          exact ⟨0x7B, renderFields tc (.cons k v t) ++ (if tc then [0x2C, 0x7D] else [0x7D]),
            rfl, by decide, by decide, by decide, by decide⟩

/-- Rendered element lists start with the head of their first value. -/
theorem renderElems_head (tc : Bool) (v : JV) (t : JVList) (hok : okJV v = true) :
    ∃ b bs, renderElems tc (.cons v t) = b :: bs ∧ isWS b = false ∧ ¬(b = 0x5D) := by
  obtain ⟨b, bs, hb, hws, _, hclose, _⟩ := renderJV_head tc v hok
  cases t with
  | nil => exact ⟨b, bs, by rw [renderElems, hb], hws, hclose⟩
  | cons w t' =>
      exact ⟨b, bs ++ 0x2C :: renderElems tc (.cons w t'),
        by rw [renderElems, hb, List.cons_append], hws, hclose⟩

/-- Rendered field lists start with the opening quote of their first key. -/
theorem renderFields_head (tc : Bool) (k : List Nat) (v : JV) (t : JVFields) :
    ∃ bs, renderFields tc (.cons k v t) = 0x22 :: bs := by
  cases t with
  | nil => exact ⟨_, rfl⟩
  | cons k' w t' => exact ⟨_, rfl⟩

/-- Every value needs at least one unit of fuel. -/
theorem needJV_pos (v : JV) : 1 ≤ needJV v := by
  cases v <;> simp [needJV]

/-- `value` on a `true` literal, fully computed up to the trailing skips. -/
theorem value_step_true (f : Nat) (post : List Nat) :
    value (f + 1) (trueLit ++ post)
      = .ok (.bool true) (skip_comma (skip_control_chars post)) := by
  rw [show value (f + 1) (trueLit ++ post)
      = ((eat_str trueLit (trueLit ++ post)).bind fun _ r => POut.ok (.bool true) r).bind
          fun v r => .ok v (skip_comma (skip_control_chars r)) from rfl]
  rw [eat_str_self, POut.bind_ok, POut.bind_ok]

/-- `value` on a `false` literal. -/
theorem value_step_false (f : Nat) (post : List Nat) :
    value (f + 1) (falseLit ++ post)
      = .ok (.bool false) (skip_comma (skip_control_chars post)) := by
  rw [show value (f + 1) (falseLit ++ post)
      = ((eat_str falseLit (falseLit ++ post)).bind fun _ r => POut.ok (.bool false) r).bind
          fun v r => .ok v (skip_comma (skip_control_chars r)) from rfl]
  rw [eat_str_self, POut.bind_ok, POut.bind_ok]

/-- `value` on a `null` literal. -/
theorem value_step_null (f : Nat) (post : List Nat) :
    value (f + 1) (nullLit ++ post)
      = .ok .null (skip_comma (skip_control_chars post)) := by
  rw [show value (f + 1) (nullLit ++ post)
      = ((eat_str nullLit (nullLit ++ post)).bind fun _ r => POut.ok .null r).bind
          fun v r => .ok v (skip_comma (skip_control_chars r)) from rfl]
  rw [eat_str_self, POut.bind_ok, POut.bind_ok]

/-- `value` on an empty array. -/
theorem value_step_empty_array (f : Nat) (post : List Nat) :
    value (f + 1) ([0x5B, 0x5D] ++ post)
      = .ok (.array []) (skip_comma (skip_control_chars post)) := rfl

/-- `value` on an empty object. -/
theorem value_step_empty_object (f : Nat) (post : List Nat) :
    value (f + 1) ([0x7B, 0x7D] ++ post)
      = .ok (.object []) (skip_comma (skip_control_chars post)) := rfl

/-- `value` dispatches a quote to `text`. -/
theorem value_step_text (f : Nat) (t : List Nat) :
    value (f + 1) (0x22 :: t)
      = (text (0x22 :: t)).bind fun v r => .ok v (skip_comma (skip_control_chars r)) := rfl

/-- `value` dispatches `[` to `array`. -/
theorem value_step_array (f : Nat) (t : List Nat) :
    value (f + 1) (0x5B :: t)
      = (array (value f) f (0x5B :: t)).bind fun v r =>
          .ok v (skip_comma (skip_control_chars r)) := rfl

/-- `value` dispatches `{` to `object`. -/
theorem value_step_object (f : Nat) (t : List Nat) :
    value (f + 1) (0x7B :: t)
      = (object (value f) f (0x7B :: t)).bind fun v r =>
          .ok v (skip_comma (skip_control_chars r)) := rfl

/-- `array` on `[` consumes the bracket and runs the element list. -/
theorem array_step (pv : List Nat → POut JSONValue) (f : Nat) (t : List Nat) :
    array pv f (0x5B :: t)
      = (array_values pv f (skip_control_chars t)).bind fun vs s₂ =>
          (eat 0x5D (skip_control_chars s₂)).bind fun _ s₃ => .ok (.array vs) s₃ := rfl

/-- `object` on `{` consumes the brace and runs the field list. -/
theorem object_step (pv : List Nat → POut JSONValue) (f : Nat) (t : List Nat) :
    object pv f (0x7B :: t)
      = (object_fields pv f (skip_control_chars t)).bind fun fs s₂ =>
          (eat 0x7D (skip_control_chars s₂)).bind fun _ s₃ => .ok (.object fs) s₃ := rfl

/-- `array_values` enters its loop on anything but `]`. -/
theorem array_values_cons (pv : List Nat → POut JSONValue) (f : Nat) (b : Nat)
    (t : List Nat) (hb : ¬(b = 0x5D)) :
    array_values pv f (b :: t) = array_values_go pv f [] (b :: t) := by
  rw [array_values.eq_def]
  simp [hb]

/-- `object_fields` enters its loop on anything but `}`. -/
theorem object_fields_cons (pv : List Nat → POut JSONValue) (f : Nat) (b : Nat)
    (t : List Nat) (hb : ¬(b = 0x7D)) :
    object_fields pv f (b :: t) = object_fields_go pv f [] (b :: t) := by
  rw [object_fields.eq_def]
  simp [hb]

/-- One iteration of the element loop. -/
theorem array_values_go_succ (pv : List Nat → POut JSONValue) (g : Nat)
    (acc : List JSONValue) (s : List Nat) :
    array_values_go pv (g + 1) acc s
      = (pv s).bind fun v s₁ =>
          match skip_control_chars s₁ with
          | [] => .err .endOfStream
          | b :: t => if b = 0x5D then .ok (acc ++ [v]) (b :: t)
                      else array_values_go pv g (acc ++ [v]) (b :: t) := rfl

/-- One iteration of the field loop. -/
theorem object_fields_go_succ (pv : List Nat → POut JSONValue) (g : Nat)
    (acc : List (List Nat × JSONValue)) (s : List Nat) :
    object_fields_go pv (g + 1) acc s
      = (object_field pv s).bind fun kv s₁ =>
          match skip_control_chars s₁ with
          | [] => .err .endOfStream
          | b :: t => if b = 0x7D then .ok (insertField acc kv.1 kv.2) (b :: t)
                      else object_fields_go pv g (insertField acc kv.1 kv.2) (b :: t) := rfl

/-- `value` dispatches a digit to `number`. -/
theorem value_step_number (f : Nat) (b : Nat) (t : List Nat) (hws : isWS b = false)
    (hb : (isDigitB b || b = 0x2D) = true) :
    value (f + 1) (b :: t)
      = (number (b :: t)).bind fun v r => .ok v (skip_comma (skip_control_chars r)) := by
  rw [value_succ, skipCC_cons_not t hws]
  dsimp only
  rw [if_pos hb]

mutual

/-- A rendered valid value, followed by a stopper suffix, parses to its
embedding, consuming one trailing comma if the suffix begins with one. -/
theorem value_render (tc : Bool) (v : JV) (hok : okJV v = true) (f : Nat)
    (hf : needJV v ≤ f + 1) (post : List Nat) (hpost : stopsB post = true) :
    value (f + 1) (renderJV tc v ++ post) = .ok (embedJV v) (afterValue post) := by
  cases v with
  | jnum d =>
      have hd : d ≤ 9 := by simpa [okJV] using hok
      rw [show renderJV tc (.jnum d) ++ post = (0x30 + d) :: post from rfl]
      rw [value_step_number f (0x30 + d) post (digit_not_ws d hd)
        (by simp [digit_isDigitB d hd])]
      rw [number_digit d hd post hpost, POut.bind_ok, skipComma_stops post hpost]
      rfl
  | jstr s =>
      have hall : s.all strByteOK = true := by simpa [okJV] using hok
      rw [show renderJV tc (.jstr s) ++ post = 0x22 :: (s ++ 0x22 :: post) from by
        simp [renderJV]]
      rw [value_step_text f (s ++ 0x22 :: post)]
      rw [show text (0x22 :: (s ++ 0x22 :: post))
          = (string (0x22 :: (s ++ 0x22 :: post))).bind fun st r => .ok (.text st) r from rfl]
      rw [string_noescape s hall post, POut.bind_ok, POut.bind_ok,
        skipComma_stops post hpost]
      rfl
  | jtrue =>
      rw [show renderJV tc .jtrue ++ post = trueLit ++ post from rfl]
      rw [value_step_true f post, skipComma_stops post hpost]
      rfl
  | jfalse =>
      rw [show renderJV tc .jfalse ++ post = falseLit ++ post from rfl]
      rw [value_step_false f post, skipComma_stops post hpost]
      rfl
  | jnull =>
      rw [show renderJV tc .jnull ++ post = nullLit ++ post from rfl]
      rw [value_step_null f post, skipComma_stops post hpost]
      rfl
  | jarr l =>
      cases l with
      | nil =>
          rw [show renderJV tc (.jarr .nil) ++ post = [0x5B, 0x5D] ++ post from rfl]
          rw [value_step_empty_array f post, skipComma_stops post hpost]
          rfl
      | cons v t =>
          have h1 : okList (.cons v t) = true := by simpa [okJV] using hok
          have hokv : okJV v = true := ((Bool.and_eq_true _ _).mp ((okList.eq_def _) ▸ h1)).1
          have hokt : okList t = true := ((Bool.and_eq_true _ _).mp ((okList.eq_def _) ▸ h1)).2
          have hneed : needList (.cons v t) ≤ f := by
            have : needJV (.jarr (.cons v t)) = 1 + needList (.cons v t) := rfl
            omega
          rw [show renderJV tc (.jarr (.cons v t)) ++ post
              = 0x5B :: (renderElems tc (.cons v t)
                  ++ (if tc then 0x2C :: 0x5D :: post else 0x5D :: post)) from by
            cases tc <;> simp [renderJV]]
          rw [value_step_array, array_step]
          obtain ⟨b, bs, hb, hws, hclose⟩ := renderElems_head tc v t hokv
          rw [show skip_control_chars
                (renderElems tc (.cons v t)
                  ++ (if tc then 0x2C :: 0x5D :: post else 0x5D :: post))
              = renderElems tc (.cons v t)
                  ++ (if tc then 0x2C :: 0x5D :: post else 0x5D :: post) from by
            rw [hb, List.cons_append]
            exact skipCC_cons_not _ hws]
          rw [show array_values (value f) f
                (renderElems tc (.cons v t)
                  ++ (if tc then 0x2C :: 0x5D :: post else 0x5D :: post))
              = array_values_go (value f) f []
                (renderElems tc (.cons v t)
                  ++ (if tc then 0x2C :: 0x5D :: post else 0x5D :: post)) from by
            rw [hb, List.cons_append]
            exact array_values_cons _ _ _ _ hclose]
          rw [elems_render tc f v t hokv hokt f hneed (Nat.le_refl f) [] post]
          rw [POut.bind_ok]
          rw [show skip_control_chars (0x5D :: post) = 0x5D :: post from
            skipCC_cons_not post (by decide)]
          rw [eat_cons_self, POut.bind_ok, POut.bind_ok, skipComma_stops post hpost]
          rfl
  | jobj l =>
      cases l with
      | nil =>
          rw [show renderJV tc (.jobj .nil) ++ post = [0x7B, 0x7D] ++ post from rfl]
          rw [value_step_empty_object f post, skipComma_stops post hpost]
          rfl
      | cons k v t =>
          have h1 : okFields (.cons k v t) = true := by simpa [okJV] using hok
          have h2 := (Bool.and_eq_true _ _).mp ((okFields.eq_def _) ▸ h1)
          have hk : k.all strByteOK = true := ((Bool.and_eq_true _ _).mp h2.1).1
          have hokv : okJV v = true := ((Bool.and_eq_true _ _).mp h2.1).2
          have hokt : okFields t = true := h2.2
          have hneed : needFields (.cons k v t) ≤ f := by
            have : needJV (.jobj (.cons k v t)) = 1 + needFields (.cons k v t) := rfl
            omega
          rw [show renderJV tc (.jobj (.cons k v t)) ++ post
              = 0x7B :: (renderFields tc (.cons k v t)
                  ++ (if tc then 0x2C :: 0x7D :: post else 0x7D :: post)) from by
            cases tc <;> simp [renderJV]]
          rw [value_step_object, object_step]
          obtain ⟨bs, hb⟩ := renderFields_head tc k v t
          rw [show skip_control_chars
                (renderFields tc (.cons k v t)
                  ++ (if tc then 0x2C :: 0x7D :: post else 0x7D :: post))
              = renderFields tc (.cons k v t)
                  ++ (if tc then 0x2C :: 0x7D :: post else 0x7D :: post) from by
            rw [hb, List.cons_append]
            exact skipCC_cons_not _ (by decide)]
          rw [show object_fields (value f) f
                (renderFields tc (.cons k v t)
                  ++ (if tc then 0x2C :: 0x7D :: post else 0x7D :: post))
              = object_fields_go (value f) f []
                (renderFields tc (.cons k v t)
                  ++ (if tc then 0x2C :: 0x7D :: post else 0x7D :: post)) from by
            rw [hb, List.cons_append]
            exact object_fields_cons _ _ _ _ (by decide)]
          rw [fields_render tc f k v t hk hokv hokt f hneed (Nat.le_refl f) [] post]
          rw [POut.bind_ok]
          rw [show skip_control_chars (0x7D :: post) = 0x7D :: post from
            skipCC_cons_not post (by decide)]
          rw [eat_cons_self, POut.bind_ok, POut.bind_ok, skipComma_stops post hpost]
          rfl
termination_by sizeOf v

/-- The element loop consumes the rendered elements (with or without one
trailing comma) up to the closing `]`, appending their embeddings to the
accumulator. -/
theorem elems_render (tc : Bool) (f : Nat) (v : JV) (t : JVList)
    (hokv : okJV v = true) (hokt : okList t = true)
    (g : Nat) (hg : needList (.cons v t) ≤ g) (hgf : g ≤ f)
    (acc : List JSONValue) (post : List Nat) :
    array_values_go (value f) g acc
        (renderElems tc (.cons v t) ++ (if tc then 0x2C :: 0x5D :: post else 0x5D :: post))
      = .ok (acc ++ embedList (.cons v t)) (0x5D :: post) := by
  have hneedv : 1 ≤ needJV v := needJV_pos v
  have hgpos : 3 ≤ g := by
    have : needList (.cons v t) = 1 + needJV v + needList t := rfl
    have ht : 1 ≤ needList t := by
      cases t <;> simp [needList]
      omega
    omega
  obtain ⟨g', rfl⟩ : ∃ g', g = g' + 1 := ⟨g - 1, by omega⟩
  obtain ⟨f₀, rfl⟩ : ∃ f₀, f = f₀ + 1 := ⟨f - 1, by omega⟩
  rw [array_values_go_succ]
  cases t with
  | nil =>
      rw [show renderElems tc (.cons v .nil) = renderJV tc v from rfl]
      rw [value_render tc v hokv f₀
        (by have : needList (.cons v .nil) = 1 + needJV v + 1 := rfl; omega)
        (if tc then 0x2C :: 0x5D :: post else 0x5D :: post)
        (by cases tc <;> rfl)]
      rw [POut.bind_ok]
      rw [show afterValue (if tc then 0x2C :: 0x5D :: post else 0x5D :: post)
          = 0x5D :: post from by cases tc <;> rfl]
      rw [show skip_control_chars (0x5D :: post) = 0x5D :: post from
        skipCC_cons_not post (by decide)]
      dsimp only
      rw [if_pos rfl]
      rfl
  | cons w t' =>
      have hokw : okJV w = true := ((Bool.and_eq_true _ _).mp ((okList.eq_def _) ▸ hokt)).1
      have hokt' : okList t' = true := ((Bool.and_eq_true _ _).mp ((okList.eq_def _) ▸ hokt)).2
      rw [show renderElems tc (.cons v (.cons w t'))
            ++ (if tc then 0x2C :: 0x5D :: post else 0x5D :: post)
          = renderJV tc v ++ (0x2C :: (renderElems tc (.cons w t')
              ++ (if tc then 0x2C :: 0x5D :: post else 0x5D :: post))) from by
        rw [show renderElems tc (.cons v (.cons w t'))
            = renderJV tc v ++ 0x2C :: renderElems tc (.cons w t') from rfl]
        simp]
      rw [value_render tc v hokv f₀
        (by have : needList (.cons v (.cons w t')) = 1 + needJV v + needList (.cons w t') := rfl
            omega)
        (0x2C :: (renderElems tc (.cons w t')
          ++ (if tc then 0x2C :: 0x5D :: post else 0x5D :: post)))
        rfl]
      rw [POut.bind_ok]
      rw [show afterValue (0x2C :: (renderElems tc (.cons w t')
            ++ (if tc then 0x2C :: 0x5D :: post else 0x5D :: post)))
          = renderElems tc (.cons w t')
            ++ (if tc then 0x2C :: 0x5D :: post else 0x5D :: post) from rfl]
      obtain ⟨b, bs, hb, hws, hclose⟩ := renderElems_head tc w t' hokw
      rw [show skip_control_chars (renderElems tc (.cons w t')
            ++ (if tc then 0x2C :: 0x5D :: post else 0x5D :: post))
          = renderElems tc (.cons w t')
            ++ (if tc then 0x2C :: 0x5D :: post else 0x5D :: post) from by
        rw [hb, List.cons_append]
        exact skipCC_cons_not _ hws]
      rw [show (match renderElems tc (.cons w t')
              ++ (if tc then 0x2C :: 0x5D :: post else 0x5D :: post) with
            | [] => POut.err .endOfStream
            | b :: t => if b = 0x5D then .ok (acc ++ [embedJV v]) (b :: t)
                        else array_values_go (value (f₀ + 1)) g' (acc ++ [embedJV v]) (b :: t))
          = array_values_go (value (f₀ + 1)) g' (acc ++ [embedJV v])
              (renderElems tc (.cons w t')
                ++ (if tc then 0x2C :: 0x5D :: post else 0x5D :: post)) from by
        rw [hb, List.cons_append]
        dsimp only
        rw [if_neg hclose]]
      rw [elems_render tc (f₀ + 1) w t' hokw hokt' g'
        (by have : needList (.cons v (.cons w t')) = 1 + needJV v + needList (.cons w t') := rfl
            omega)
        (by omega) (acc ++ [embedJV v]) post]
      rw [show embedList (.cons v (.cons w t')) = embedJV v :: embedList (.cons w t') from rfl]
      simp
termination_by sizeOf v + sizeOf t

/-- The field loop consumes the rendered fields (with or without one
trailing comma) up to the closing `}`, inserting their embeddings into the
accumulator. -/
theorem fields_render (tc : Bool) (f : Nat) (k : List Nat) (v : JV) (t : JVFields)
    (hk : k.all strByteOK = true) (hokv : okJV v = true) (hokt : okFields t = true)
    (g : Nat) (hg : needFields (.cons k v t) ≤ g) (hgf : g ≤ f)
    (acc : List (List Nat × JSONValue)) (post : List Nat) :
    object_fields_go (value f) g acc
        (renderFields tc (.cons k v t) ++ (if tc then 0x2C :: 0x7D :: post else 0x7D :: post))
      = .ok (insertAllF acc (.cons k v t)) (0x7D :: post) := by
  have hneedv : 1 ≤ needJV v := needJV_pos v
  have hgpos : 3 ≤ g := by
    have : needFields (.cons k v t) = 1 + needJV v + needFields t := rfl
    have ht : 1 ≤ needFields t := by
      cases t <;> simp [needFields]
      omega
    omega
  obtain ⟨g', rfl⟩ : ∃ g', g = g' + 1 := ⟨g - 1, by omega⟩
  obtain ⟨f₀, rfl⟩ : ∃ f₀, f = f₀ + 1 := ⟨f - 1, by omega⟩
  rw [object_fields_go_succ]
  cases t with
  | nil =>
      rw [show renderFields tc (.cons k v .nil)
            ++ (if tc then 0x2C :: 0x7D :: post else 0x7D :: post)
          = 0x22 :: (k ++ 0x22 :: (0x3A :: (renderJV tc v
              ++ (if tc then 0x2C :: 0x7D :: post else 0x7D :: post)))) from by
        rw [show renderFields tc (.cons k v .nil)
            = 0x22 :: (k ++ 0x22 :: 0x3A :: renderJV tc v) from rfl]
        simp]
      rw [show object_field (value (f₀ + 1))
            (0x22 :: (k ++ 0x22 :: (0x3A :: (renderJV tc v
              ++ (if tc then 0x2C :: 0x7D :: post else 0x7D :: post)))))
          = (string (0x22 :: (k ++ 0x22 :: (0x3A :: (renderJV tc v
              ++ (if tc then 0x2C :: 0x7D :: post else 0x7D :: post)))))).bind fun kk s₁ =>
              (eat 0x3A (skip_control_chars s₁)).bind fun _ s₂ =>
                (value (f₀ + 1) s₂).bind fun vv s₃ => .ok (kk, vv) s₃ from by
        rw [object_field]
        rw [skipCC_cons_not _ (by decide)]]
      rw [string_noescape k hk _, POut.bind_ok]
      rw [show skip_control_chars (0x3A :: (renderJV tc v
            ++ (if tc then 0x2C :: 0x7D :: post else 0x7D :: post)))
          = 0x3A :: (renderJV tc v
            ++ (if tc then 0x2C :: 0x7D :: post else 0x7D :: post)) from
        skipCC_cons_not _ (by decide)]
      rw [eat_cons_self, POut.bind_ok]
      rw [value_render tc v hokv f₀
        (by have : needFields (.cons k v .nil) = 1 + needJV v + 1 := rfl; omega)
        (if tc then 0x2C :: 0x7D :: post else 0x7D :: post)
        (by cases tc <;> rfl)]
      rw [POut.bind_ok, POut.bind_ok]
      rw [show afterValue (if tc then 0x2C :: 0x7D :: post else 0x7D :: post)
          = 0x7D :: post from by cases tc <;> rfl]
      rw [show skip_control_chars (0x7D :: post) = 0x7D :: post from
        skipCC_cons_not post (by decide)]
      dsimp only
      rw [if_pos rfl]
      rfl
  | cons k' w t' =>
      have h2 := (Bool.and_eq_true _ _).mp ((okFields.eq_def _) ▸ hokt)
      have hk' : k'.all strByteOK = true := ((Bool.and_eq_true _ _).mp h2.1).1
      have hokw : okJV w = true := ((Bool.and_eq_true _ _).mp h2.1).2
      have hokt' : okFields t' = true := h2.2
      rw [show renderFields tc (.cons k v (.cons k' w t'))
            ++ (if tc then 0x2C :: 0x7D :: post else 0x7D :: post)
          = 0x22 :: (k ++ 0x22 :: (0x3A :: (renderJV tc v
              ++ (0x2C :: (renderFields tc (.cons k' w t')
                ++ (if tc then 0x2C :: 0x7D :: post else 0x7D :: post)))))) from by
        rw [show renderFields tc (.cons k v (.cons k' w t'))
            = 0x22 :: (k ++ 0x22 :: 0x3A :: renderJV tc v)
              ++ 0x2C :: renderFields tc (.cons k' w t') from rfl]
        simp]
      rw [show object_field (value (f₀ + 1))
            (0x22 :: (k ++ 0x22 :: (0x3A :: (renderJV tc v
              ++ (0x2C :: (renderFields tc (.cons k' w t')
                ++ (if tc then 0x2C :: 0x7D :: post else 0x7D :: post)))))))
          = (string (0x22 :: (k ++ 0x22 :: (0x3A :: (renderJV tc v
              ++ (0x2C :: (renderFields tc (.cons k' w t')
                ++ (if tc then 0x2C :: 0x7D :: post else 0x7D :: post)))))))).bind fun kk s₁ =>
              (eat 0x3A (skip_control_chars s₁)).bind fun _ s₂ =>
                (value (f₀ + 1) s₂).bind fun vv s₃ => .ok (kk, vv) s₃ from by
        rw [object_field]
        rw [skipCC_cons_not _ (by decide)]]
      rw [string_noescape k hk _, POut.bind_ok]
      rw [show skip_control_chars (0x3A :: (renderJV tc v
            ++ (0x2C :: (renderFields tc (.cons k' w t')
              ++ (if tc then 0x2C :: 0x7D :: post else 0x7D :: post)))))
          = 0x3A :: (renderJV tc v
            ++ (0x2C :: (renderFields tc (.cons k' w t')
              ++ (if tc then 0x2C :: 0x7D :: post else 0x7D :: post)))) from
        skipCC_cons_not _ (by decide)]
      rw [eat_cons_self, POut.bind_ok]
      rw [value_render tc v hokv f₀
        (by have : needFields (.cons k v (.cons k' w t'))
              = 1 + needJV v + needFields (.cons k' w t') := rfl
            omega)
        (0x2C :: (renderFields tc (.cons k' w t')
          ++ (if tc then 0x2C :: 0x7D :: post else 0x7D :: post)))
        rfl]
      rw [POut.bind_ok, POut.bind_ok]
      rw [show afterValue (0x2C :: (renderFields tc (.cons k' w t')
            ++ (if tc then 0x2C :: 0x7D :: post else 0x7D :: post)))
          = renderFields tc (.cons k' w t')
            ++ (if tc then 0x2C :: 0x7D :: post else 0x7D :: post) from rfl]
      obtain ⟨bs, hb⟩ := renderFields_head tc k' w t'
      rw [show skip_control_chars (renderFields tc (.cons k' w t')
            ++ (if tc then 0x2C :: 0x7D :: post else 0x7D :: post))
          = renderFields tc (.cons k' w t')
            ++ (if tc then 0x2C :: 0x7D :: post else 0x7D :: post) from by
        rw [hb, List.cons_append]
        exact skipCC_cons_not _ (by decide)]
      rw [show (match renderFields tc (.cons k' w t')
              ++ (if tc then 0x2C :: 0x7D :: post else 0x7D :: post) with
            | [] => POut.err .endOfStream
            | b :: t => if b = 0x7D then
                  .ok (insertField acc k (embedJV v)) (b :: t)
                else object_fields_go (value (f₀ + 1)) g'
                  (insertField acc k (embedJV v)) (b :: t))
          = object_fields_go (value (f₀ + 1)) g' (insertField acc k (embedJV v))
              (renderFields tc (.cons k' w t')
                ++ (if tc then 0x2C :: 0x7D :: post else 0x7D :: post)) from by
        rw [hb, List.cons_append]
        dsimp only
        rw [if_neg (by decide)]]
      rw [fields_render tc (f₀ + 1) k' w t' hk' hokw hokt' g'
        (by have : needFields (.cons k v (.cons k' w t'))
              = 1 + needJV v + needFields (.cons k' w t') := rfl
            omega)
        (by omega) (insertField acc k (embedJV v)) post]
      rfl
termination_by sizeOf v + sizeOf t

end

mutual

/-- The fuel needed by a rendered value is within the entry point's
budget. -/
theorem needJV_le_render (tc : Bool) (v : JV) : needJV v ≤ 2 * (renderJV tc v).length := by
  cases v with
  | jnum d => simp [needJV, renderJV]
  | jstr s => simp [needJV, renderJV]; omega
  | jtrue => simp [needJV, renderJV, trueLit]
  | jfalse => simp [needJV, renderJV, falseLit]
  | jnull => simp [needJV, renderJV, nullLit]
  | jarr l =>
      cases l with
      | nil => simp [needJV, needList, renderJV]
      | cons v t =>
          have h := needList_le_render tc v t
          rw [show needJV (.jarr (.cons v t)) = 1 + needList (.cons v t) from rfl]
          rw [show renderJV tc (.jarr (.cons v t))
              = 0x5B :: (renderElems tc (.cons v t)
                  ++ (if tc then [0x2C, 0x5D] else [0x5D])) from rfl]
          simp only [List.length_cons, List.length_append]
          cases tc <;> simp <;> omega
  | jobj l =>
      cases l with
      | nil => simp [needJV, needFields, renderJV]
      | cons k v t =>
          have h := needFields_le_render tc k v t
          rw [show needJV (.jobj (.cons k v t)) = 1 + needFields (.cons k v t) from rfl]
          rw [show renderJV tc (.jobj (.cons k v t))
              = 0x7B :: (renderFields tc (.cons k v t)
                  ++ (if tc then [0x2C, 0x7D] else [0x7D])) from rfl]
          simp only [List.length_cons, List.length_append]
          cases tc <;> simp <;> omega
termination_by sizeOf v

/-- The fuel needed by rendered elements is within their length budget. -/
theorem needList_le_render (tc : Bool) (v : JV) (t : JVList) :
    needList (.cons v t) ≤ 2 * (renderElems tc (.cons v t)).length + 2 := by
  cases t with
  | nil =>
      have h := needJV_le_render tc v
      rw [show needList (.cons v .nil) = 1 + needJV v + 1 from rfl]
      rw [show renderElems tc (.cons v .nil) = renderJV tc v from rfl]
      omega
  | cons w t' =>
      have h1 := needJV_le_render tc v
      have h2 := needList_le_render tc w t'
      rw [show needList (.cons v (.cons w t'))
          = 1 + needJV v + needList (.cons w t') from rfl]
      rw [show renderElems tc (.cons v (.cons w t'))
          = renderJV tc v ++ 0x2C :: renderElems tc (.cons w t') from rfl]
      simp only [List.length_append, List.length_cons]
      omega
termination_by sizeOf v + sizeOf t

/-- The fuel needed by rendered fields is within their length budget. -/
theorem needFields_le_render (tc : Bool) (k : List Nat) (v : JV) (t : JVFields) :
    needFields (.cons k v t) ≤ 2 * (renderFields tc (.cons k v t)).length + 2 := by
  cases t with
  | nil =>
      have h := needJV_le_render tc v
      rw [show needFields (.cons k v .nil) = 1 + needJV v + 1 from rfl]
      rw [show renderFields tc (.cons k v .nil)
          = 0x22 :: (k ++ 0x22 :: 0x3A :: renderJV tc v) from rfl]
      simp only [List.length_cons, List.length_append]
      omega
  | cons k' w t' =>
      have h1 := needJV_le_render tc v
      have h2 := needFields_le_render tc k' w t'
      rw [show needFields (.cons k v (.cons k' w t'))
          = 1 + needJV v + needFields (.cons k' w t') from rfl]
      rw [show renderFields tc (.cons k v (.cons k' w t'))
          = 0x22 :: (k ++ 0x22 :: 0x3A :: renderJV tc v)
            ++ 0x2C :: renderFields tc (.cons k' w t') from rfl]
      simp only [List.length_cons, List.length_append]
      omega
termination_by sizeOf v + sizeOf t

end

/-- Whether a rendered value is a legal document root. -/
def isRootJV : JV → Bool
  | .jarr _ => true
  | .jobj _ => true
  | _ => false

/-- The entry point on a rendered root value: success with its embedding,
whole input consumed. -/
theorem parse_renderJV (tc : Bool) (v : JV) (hok : okJV v = true)
    (hroot : isRootJV v = true) :
    parse (renderJV tc v) = .ok (embedJV v) [] := by
  have hval := value_render tc v hok (2 * (renderJV tc v).length + 3)
    (by have := needJV_le_render tc v; omega) [] rfl
  rw [List.append_nil] at hval
  rw [parse, show fuelFor (renderJV tc v) = 2 * (renderJV tc v).length + 3 + 1 from rfl, hval]
  cases v with
  | jnum d => simp [isRootJV] at hroot
  | jstr s => simp [isRootJV] at hroot
  | jtrue => simp [isRootJV] at hroot
  | jfalse => simp [isRootJV] at hroot
  | jnull => simp [isRootJV] at hroot
  | jarr l => rfl
  | jobj l => rfl

/-- C7 (confirmed): the empty object text `{}` parses to an empty mapping
and the empty array text `[]` to an empty sequence; and for every rendered
object or array value, the text with a trailing comma before each closing
`}`/`]` is accepted without error and parses to exactly the same value as
the text without trailing commas. -/
theorem empty_and_trailing_comma :
    parse [0x7B, 0x7D] = .ok (.object []) [] ∧
    parse [0x5B, 0x5D] = .ok (.array []) [] ∧
    (∀ v : JV, okJV v = true → isRootJV v = true →
      parse (renderJV true v) = parse (renderJV false v) ∧
      parse (renderJV false v) = .ok (embedJV v) []) := by
  refine ⟨rfl, rfl, fun v hok hroot => ?_⟩
  rw [parse_renderJV true v hok hroot, parse_renderJV false v hok hroot]
  exact ⟨rfl, rfl⟩

/-! ## Claim C10: appending bytes after a parsed root value

The entry point never looks at what follows the root value (beyond the
trailing whitespace-and-comma skip, which cannot fail), so appending
arbitrary bytes to an input that parses keeps the parsed value.  The proof
is an extension lemma — a successful run on `s` extends to the same run on
`s ++ x` — by induction on fuel, together with fuel monotonicity (the
entry point gives the longer input more fuel). -/

/-- Dropping at most the available prefix commutes with appending. -/
theorem drop_append_of_le (n : Nat) (l r : List Nat) (h : n ≤ l.length) :
    (l ++ r).drop n = l.drop n ++ r := by
  rw [List.drop_append_eq_append_drop, Nat.sub_eq_zero_of_le h, List.drop_zero]

/-- A `takeWhile` run that stops inside the list is unchanged by
appending. -/
theorem takeWhile_append_of_lt (p : Nat → Bool) (s x : List Nat)
    (h : (s.takeWhile p).length < s.length) :
    (s ++ x).takeWhile p = s.takeWhile p := by
  induction s with
  | nil => simp at h
  | cons b t ih =>
      by_cases hp : p b = true
      · have e1 : List.takeWhile p (b :: t) = b :: List.takeWhile p t := by
          rw [List.takeWhile_cons, if_pos hp]
        have e2 : List.takeWhile p (b :: (t ++ x)) = b :: List.takeWhile p (t ++ x) := by
          rw [List.takeWhile_cons, if_pos hp]
        rw [List.cons_append, e2, e1]
        rw [e1] at h
        simp only [List.length_cons] at h
        rw [ih (by omega)]
      · have e1 : List.takeWhile p (b :: t) = [] := by
          rw [List.takeWhile_cons, if_neg hp]
        have e2 : List.takeWhile p (b :: (t ++ x)) = [] := by
          rw [List.takeWhile_cons, if_neg hp]
        rw [List.cons_append, e2, e1]

/-- `eat` extends. -/
theorem ext_eat (tok : Nat) (s x : List Nat) (a : Unit) (r : List Nat)
    (h : eat tok s = .ok a r) : eat tok (s ++ x) = .ok a (r ++ x) := by
  cases s with
  | nil => rw [eat] at h; cases h
  | cons b t =>
      rw [eat.eq_def] at h
      rw [List.cons_append, eat.eq_def]
      dsimp only at h ⊢
      by_cases hb : b = tok
      · rw [if_pos hb] at h ⊢
        cases h
        rfl
      · rw [if_neg hb] at h
        cases h

/-- `eat_str` extends. -/
theorem ext_eat_str (ms s x : List Nat) (a : Unit) (r : List Nat)
    (h : eat_str ms s = .ok a r) : eat_str ms (s ++ x) = .ok a (r ++ x) := by
  rw [eat_str] at h
  by_cases hlen : ms.length ≤ s.length
  · rw [if_pos hlen] at h
    by_cases htake : s.take ms.length = ms
    · rw [if_pos htake] at h
      cases h
      rw [eat_str, if_pos (by simp; omega), List.take_append_of_le_length hlen, if_pos htake,
        drop_append_of_le _ _ _ hlen]
    · rw [if_neg htake] at h
      cases h
  · rw [if_neg hlen] at h
    cases h

/-- `eat_buffered_until` extends (auxiliary, by bounded induction). -/
theorem ext_eat_buffered_until_aux (n : Nat) (tok : Nat) (s x b r : List Nat)
    (hn : s.length ≤ n) (h : eat_buffered_until tok s = .ok (b, r)) :
    eat_buffered_until tok (s ++ x) = .ok (b, r ++ x) := by
  induction n generalizing s b r with
  | zero =>
      cases s with
      | nil => rw [eat_buffered_until] at h; cases h
      | cons c t => simp at hn
  | succ n ih =>
      cases s with
      | nil => rw [eat_buffered_until] at h; cases h
      | cons c t =>
          rw [eat_buffered_until.eq_def] at h
          rw [List.cons_append, eat_buffered_until.eq_def]
          dsimp only at h ⊢
          by_cases hc : c = tok
          · rw [if_pos hc] at h ⊢
            cases h
            rfl
          · rw [if_neg hc] at h ⊢
            by_cases hbs : c = 0x5C
            · rw [if_pos hbs] at h ⊢
              cases t with
              | nil => cases h
              | cons c' t' =>
                  rw [List.cons_append]
                  dsimp only at h ⊢
                  cases hesc : escByte c' with
                  | some e =>
                      rw [hesc] at h
                      dsimp only at h ⊢
                      cases hrec : eat_buffered_until tok t' with
                      | ok p =>
                          cases p with
                          | mk s' r' =>
                              rw [hrec] at h
                              cases h
                              rw [ih t' _ _ (by simp at hn ⊢; omega) hrec]
                      | error e' => rw [hrec] at h; cases h
                  | none => rw [hesc] at h; cases h
            · rw [if_neg hbs] at h ⊢
              cases hrec : eat_buffered_until tok t with
              | ok p =>
                  cases p with
                  | mk s' r' =>
                      rw [hrec] at h
                      cases h
                      rw [ih t _ _ (by simp at hn ⊢; omega) hrec]
              | error e' => rw [hrec] at h; cases h

/-- `eat_buffered_until` extends. -/
theorem ext_eat_buffered_until (tok : Nat) (s x : List Nat) (b r : List Nat)
    (h : eat_buffered_until tok s = .ok (b, r)) :
    eat_buffered_until tok (s ++ x) = .ok (b, r ++ x) :=
  ext_eat_buffered_until_aux s.length tok s x b r (Nat.le_refl _) h

/-- `eat_until` extends. -/
theorem ext_eat_until (tok : Nat) (s x : List Nat) (p : List Nat × Bool) (r : List Nat)
    (h : eat_until tok s = .ok p r) : eat_until tok (s ++ x) = .ok p (r ++ x) := by
  induction s generalizing p r with
  | nil => rw [eat_until] at h; cases h
  | cons c t ih =>
      rw [eat_until.eq_def] at h
      rw [List.cons_append, eat_until.eq_def]
      dsimp only at h ⊢
      by_cases hc : c = tok
      · rw [if_pos hc] at h ⊢
        cases h
        rfl
      · rw [if_neg hc] at h ⊢
        by_cases hbs : c = 0x5C
        · rw [if_pos hbs] at h ⊢
          cases hrec : eat_buffered_until tok (c :: t) with
          | ok q =>
              cases q with
              | mk s' r' =>
                  rw [hrec] at h
                  cases h
                  have hext := ext_eat_buffered_until tok (c :: t) x _ _ hrec
                  rw [List.cons_append] at hext
                  rw [hext]
          | error e' => rw [hrec] at h; cases h
        · rw [if_neg hbs] at h ⊢
          cases hrec : eat_until tok t with
          | ok q r' =>
              cases q with
              | mk s' al =>
                  rw [hrec] at h
                  cases h
                  rw [ih _ _ hrec]
          | err e' => rw [hrec] at h; cases h
          | panicked => rw [hrec] at h; cases h
          | spin => rw [hrec] at h; cases h

/-- `string` extends. -/
theorem ext_string (s x : List Nat) (k : List Nat) (r : List Nat)
    (h : string s = .ok k r) : string (s ++ x) = .ok k (r ++ x) := by
  rw [string] at h
  rw [string]
  cases h1 : eat 0x22 s with
  | ok u s₁ =>
      rw [h1, POut.bind_ok] at h
      rw [ext_eat 0x22 s x u s₁ h1, POut.bind_ok]
      cases h2 : eat_until 0x22 s₁ with
      | ok p s₂ =>
          rw [h2, POut.bind_ok] at h
          rw [ext_eat_until 0x22 s₁ x p s₂ h2, POut.bind_ok]
          cases h3 : eat 0x22 s₂ with
          | ok u' s₃ =>
              rw [h3, POut.bind_ok] at h
              cases h
              rw [ext_eat 0x22 s₂ x u' _ h3, POut.bind_ok]
          | err e => rw [h3] at h; cases h
          | panicked => rw [h3] at h; cases h
          | spin => rw [h3] at h; cases h
      | err e => rw [h2] at h; cases h
      | panicked => rw [h2] at h; cases h
      | spin => rw [h2] at h; cases h
  | err e => rw [h1] at h; cases h
  | panicked => rw [h1] at h; cases h
  | spin => rw [h1] at h; cases h

/-- `text` extends. -/
theorem ext_text (s x : List Nat) (v : JSONValue) (r : List Nat)
    (h : text s = .ok v r) : text (s ++ x) = .ok v (r ++ x) := by
  rw [text] at h
  rw [text]
  cases h1 : string s with
  | ok k r₁ =>
      rw [h1, POut.bind_ok] at h
      cases h
      rw [ext_string s x k _ h1, POut.bind_ok]
  | err e => rw [h1] at h; cases h
  | panicked => rw [h1] at h; cases h
  | spin => rw [h1] at h; cases h

/-- `number` extends when it stopped at a real byte (nonempty
remainder). -/
theorem ext_number (s x : List Nat) (v : JSONValue) (r : List Nat)
    (h : number s = .ok v r) (hr : r ≠ []) : number (s ++ x) = .ok v (r ++ x) := by
  rw [number] at h
  cases hn : jsonNumVal (s.takeWhile isNumByte) with
  | some q =>
      rw [hn] at h
      cases h
      have hlt : (s.takeWhile isNumByte).length < s.length := by
        by_contra hge
        push_neg at hge
        have : s.drop (s.takeWhile isNumByte).length = [] := by
          apply List.drop_eq_nil_of_le hge
        exact hr this
      rw [number, takeWhile_append_of_lt isNumByte s x hlt, hn,
        drop_append_of_le _ _ _ (by omega)]
  | none => rw [hn] at h; cases h

/-- A `skip_control_chars` that stops at a byte is unchanged by
appending. -/
theorem ext_skipCC (s x : List Nat) (b : Nat) (t : List Nat)
    (h : skip_control_chars s = b :: t) :
    skip_control_chars (s ++ x) = b :: (t ++ x) := by
  induction s with
  | nil => cases h
  | cons c u ih =>
      rw [skip_control_chars.eq_def] at h
      rw [List.cons_append, skip_control_chars.eq_def]
      dsimp only at h ⊢
      by_cases hc : isWS c = true
      · rw [if_pos hc] at h ⊢
        exact ih h
      · rw [if_neg hc] at h ⊢
        cases h
        rfl

/-- `number` only ever produces `Number` values. -/
theorem number_shape (s : List Nat) (v : JSONValue) (r : List Nat)
    (h : number s = .ok v r) : ∃ n, v = .number n := by
  rw [number] at h
  cases hn : jsonNumVal (s.takeWhile isNumByte) with
  | some q => rw [hn] at h; cases h; exact ⟨q, rfl⟩
  | none => rw [hn] at h; cases h

/-- `text` only ever produces `Text` values. -/
theorem text_shape (s : List Nat) (v : JSONValue) (r : List Nat)
    (h : text s = .ok v r) : ∃ st, v = .text st := by
  rw [text] at h
  cases h1 : string s with
  | ok k r₁ => rw [h1, POut.bind_ok] at h; cases h; exact ⟨k, rfl⟩
  | err e => rw [h1] at h; cases h
  | panicked => rw [h1] at h; cases h
  | spin => rw [h1] at h; cases h

/-- `array` only ever produces `Array` values. -/
theorem array_shape (pv : List Nat → POut JSONValue) (f : Nat) (s : List Nat)
    (v : JSONValue) (r : List Nat) (h : array pv f s = .ok v r) :
    ∃ vs, v = .array vs := by
  rw [array] at h
  cases h1 : eat 0x5B (skip_control_chars s) with
  | ok u s₁ =>
      rw [h1, POut.bind_ok] at h
      cases h2 : array_values pv f (skip_control_chars s₁) with
      | ok vs s₂ =>
          rw [h2, POut.bind_ok] at h
          cases h3 : eat 0x5D (skip_control_chars s₂) with
          | ok u' s₃ => rw [h3, POut.bind_ok] at h; cases h; exact ⟨vs, rfl⟩
          | err e => rw [h3] at h; cases h
          | panicked => rw [h3] at h; cases h
          | spin => rw [h3] at h; cases h
      | err e => rw [h2] at h; cases h
      | panicked => rw [h2] at h; cases h
      | spin => rw [h2] at h; cases h
  | err e => rw [h1] at h; cases h
  | panicked => rw [h1] at h; cases h
  | spin => rw [h1] at h; cases h

/-- `object` only ever produces `Object` values. -/
theorem object_shape (pv : List Nat → POut JSONValue) (f : Nat) (s : List Nat)
    (v : JSONValue) (r : List Nat) (h : object pv f s = .ok v r) :
    ∃ fs, v = .object fs := by
  rw [object] at h
  cases h1 : eat 0x7B (skip_control_chars s) with
  | ok u s₁ =>
      rw [h1, POut.bind_ok] at h
      cases h2 : object_fields pv f (skip_control_chars s₁) with
      | ok fs s₂ =>
          rw [h2, POut.bind_ok] at h
          cases h3 : eat 0x7D (skip_control_chars s₂) with
          | ok u' s₃ => rw [h3, POut.bind_ok] at h; cases h; exact ⟨fs, rfl⟩
          | err e => rw [h3] at h; cases h
          | panicked => rw [h3] at h; cases h
          | spin => rw [h3] at h; cases h
      | err e => rw [h2] at h; cases h
      | panicked => rw [h2] at h; cases h
      | spin => rw [h2] at h; cases h
  | err e => rw [h1] at h; cases h
  | panicked => rw [h1] at h; cases h
  | spin => rw [h1] at h; cases h

/-- A successful `eat` starts from a nonempty input. -/
theorem eat_ok_src_ne_nil (tok : Nat) (s : List Nat) (a : Unit) (r : List Nat)
    (h : eat tok s = .ok a r) : ∃ b t, s = b :: t := by
  cases s with
  | nil => rw [eat] at h; cases h
  | cons b t => exact ⟨b, t, rfl⟩

/-- `skip_control_chars` maps `[]` to `[]`. -/
theorem skipCC_nil : skip_control_chars [] = [] := rfl

/-- `value`'s trailing skips extend whenever their result was nonempty. -/
theorem trailing_ext (r₀ x : List Nat)
    (hr : skip_comma (skip_control_chars r₀) ≠ []) :
    skip_comma (skip_control_chars (r₀ ++ x))
      = skip_comma (skip_control_chars r₀) ++ x := by
  cases hcc : skip_control_chars r₀ with
  | nil => rw [hcc] at hr; exact absurd rfl hr
  | cons c u =>
      rw [ext_skipCC r₀ x c u hcc]
      rw [skip_comma.eq_def, skip_comma.eq_def]
      dsimp only
      by_cases hc : c = 0x2C
      · rw [if_pos hc, if_pos hc]
      · rw [if_neg hc, if_neg hc]
        rfl

/-- `object_field` extends, parametrically in the value parser. -/
theorem ext_object_field (pv pv' : List Nat → POut JSONValue)
    (hpv : ∀ s x v r, pv s = .ok v r → r ≠ [] → pv' (s ++ x) = .ok v (r ++ x))
    (s x : List Nat) (kv : List Nat × JSONValue) (r : List Nat)
    (h : object_field pv s = .ok kv r) (hr : r ≠ []) :
    object_field pv' (s ++ x) = .ok kv (r ++ x) := by
  rw [object_field] at h
  rw [object_field]
  cases h1 : string (skip_control_chars s) with
  | ok k s₁ =>
      rw [h1, POut.bind_ok] at h
      obtain ⟨b, t, hbt⟩ : ∃ b t, skip_control_chars s = b :: t := by
        cases hcc : skip_control_chars s with
        | nil => rw [hcc, string, eat] at h1; cases h1
        | cons b t => exact ⟨b, t, rfl⟩
      rw [hbt] at h1
      rw [ext_skipCC s x b t hbt]
      have h1' := ext_string (b :: t) x k s₁ h1
      rw [List.cons_append] at h1'
      rw [h1', POut.bind_ok]
      cases h2 : eat 0x3A (skip_control_chars s₁) with
      | ok u s₂ =>
          rw [h2, POut.bind_ok] at h
          obtain ⟨b₁, t₁, hbt₁⟩ : ∃ b₁ t₁, skip_control_chars s₁ = b₁ :: t₁ := by
            cases hcc : skip_control_chars s₁ with
            | nil => rw [hcc, eat] at h2; cases h2
            | cons b₁ t₁ => exact ⟨b₁, t₁, rfl⟩
          rw [ext_skipCC s₁ x b₁ t₁ hbt₁]
          rw [hbt₁] at h2
          have h2' := ext_eat 0x3A (b₁ :: t₁) x u s₂ h2
          rw [List.cons_append] at h2'
          rw [h2', POut.bind_ok]
          cases h3 : pv s₂ with
          | ok v s₃ =>
              rw [h3, POut.bind_ok] at h
              cases h
              rw [hpv s₂ x v _ h3 hr, POut.bind_ok]
          | err e => rw [h3] at h; cases h
          | panicked => rw [h3] at h; cases h
          | spin => rw [h3] at h; cases h
      | err e => rw [h2] at h; cases h
      | panicked => rw [h2] at h; cases h
      | spin => rw [h2] at h; cases h
  | err e => rw [h1] at h; cases h
  | panicked => rw [h1] at h; cases h
  | spin => rw [h1] at h; cases h

/-- The element loop extends, parametrically in the value parser. -/
theorem ext_array_values_go (pv pv' : List Nat → POut JSONValue)
    (hpv : ∀ s x v r, pv s = .ok v r → r ≠ [] → pv' (s ++ x) = .ok v (r ++ x))
    (g : Nat) :
    ∀ (acc : List JSONValue) (s x : List Nat) (l : List JSONValue) (r : List Nat),
      array_values_go pv g acc s = .ok l r →
      array_values_go pv' g acc (s ++ x) = .ok l (r ++ x) := by
  induction g with
  | zero => intro acc s x l r h; rw [array_values_go] at h; cases h
  | succ g ih =>
      intro acc s x l r h
      rw [array_values_go_succ] at h
      rw [array_values_go_succ]
      cases h1 : pv s with
      | ok v s₁ =>
          rw [h1, POut.bind_ok] at h
          cases hcc : skip_control_chars s₁ with
          | nil => rw [hcc] at h; cases h
          | cons b t =>
              rw [hcc] at h
              have hs₁ : s₁ ≠ [] := by
                intro he
                rw [he, skipCC_nil] at hcc
                cases hcc
              rw [hpv s x v s₁ h1 hs₁, POut.bind_ok]
              rw [ext_skipCC s₁ x b t hcc]
              dsimp only at h ⊢
              by_cases hb : b = 0x5D
              · rw [if_pos hb] at h ⊢
                cases h
                rfl
              · rw [if_neg hb] at h ⊢
                have := ih (acc ++ [v]) (b :: t) x l r h
                rw [List.cons_append] at this
                exact this
      | err e => rw [h1] at h; cases h
      | panicked => rw [h1] at h; cases h
      | spin => rw [h1] at h; cases h

/-- The field loop extends, parametrically in the value parser. -/
theorem ext_object_fields_go (pv pv' : List Nat → POut JSONValue)
    (hpv : ∀ s x v r, pv s = .ok v r → r ≠ [] → pv' (s ++ x) = .ok v (r ++ x))
    (g : Nat) :
    ∀ (acc : List (List Nat × JSONValue)) (s x : List Nat)
      (l : List (List Nat × JSONValue)) (r : List Nat),
      object_fields_go pv g acc s = .ok l r →
      object_fields_go pv' g acc (s ++ x) = .ok l (r ++ x) := by
  induction g with
  | zero => intro acc s x l r h; rw [object_fields_go] at h; cases h
  | succ g ih =>
      intro acc s x l r h
      rw [object_fields_go_succ] at h
      rw [object_fields_go_succ]
      cases h1 : object_field pv s with
      | ok kv s₁ =>
          rw [h1, POut.bind_ok] at h
          cases hcc : skip_control_chars s₁ with
          | nil => rw [hcc] at h; cases h
          | cons b t =>
              rw [hcc] at h
              have hs₁ : s₁ ≠ [] := by
                intro he
                rw [he, skipCC_nil] at hcc
                cases hcc
              rw [ext_object_field pv pv' hpv s x kv s₁ h1 hs₁, POut.bind_ok]
              rw [ext_skipCC s₁ x b t hcc]
              dsimp only at h ⊢
              by_cases hb : b = 0x7D
              · rw [if_pos hb] at h ⊢
                cases h
                rfl
              · rw [if_neg hb] at h ⊢
                have := ih (insertField acc kv.1 kv.2) (b :: t) x l r h
                rw [List.cons_append] at this
                exact this
      | err e => rw [h1] at h; cases h
      | panicked => rw [h1] at h; cases h
      | spin => rw [h1] at h; cases h

/-- `array_values` extends, parametrically in the value parser. -/
theorem ext_array_values (pv pv' : List Nat → POut JSONValue)
    (hpv : ∀ s x v r, pv s = .ok v r → r ≠ [] → pv' (s ++ x) = .ok v (r ++ x))
    (g : Nat) (s x : List Nat) (l : List JSONValue) (r : List Nat)
    (h : array_values pv g s = .ok l r) :
    array_values pv' g (s ++ x) = .ok l (r ++ x) := by
  cases s with
  | nil => rw [array_values] at h; cases h
  | cons b t =>
      rw [array_values.eq_def] at h
      rw [List.cons_append, array_values.eq_def]
      dsimp only at h ⊢
      by_cases hb : b = 0x5D
      · rw [if_pos hb] at h ⊢
        cases h
        rfl
      · rw [if_neg hb] at h ⊢
        have := ext_array_values_go pv pv' hpv g [] (b :: t) x l r h
        rw [List.cons_append] at this
        exact this

/-- `object_fields` extends, parametrically in the value parser. -/
theorem ext_object_fields (pv pv' : List Nat → POut JSONValue)
    (hpv : ∀ s x v r, pv s = .ok v r → r ≠ [] → pv' (s ++ x) = .ok v (r ++ x))
    (g : Nat) (s x : List Nat) (l : List (List Nat × JSONValue)) (r : List Nat)
    (h : object_fields pv g s = .ok l r) :
    object_fields pv' g (s ++ x) = .ok l (r ++ x) := by
  cases s with
  | nil => rw [object_fields] at h; cases h
  | cons b t =>
      rw [object_fields.eq_def] at h
      rw [List.cons_append, object_fields.eq_def]
      dsimp only at h ⊢
      by_cases hb : b = 0x7D
      · rw [if_pos hb] at h ⊢
        cases h
        rfl
      · rw [if_neg hb] at h ⊢
        have := ext_object_fields_go pv pv' hpv g [] (b :: t) x l r h
        rw [List.cons_append] at this
        exact this

/-- `array` extends, parametrically in the value parser (no side
condition: it always ends on its closing bracket). -/
theorem ext_array (pv pv' : List Nat → POut JSONValue)
    (hpv : ∀ s x v r, pv s = .ok v r → r ≠ [] → pv' (s ++ x) = .ok v (r ++ x))
    (f : Nat) (s x : List Nat) (a : JSONValue) (r : List Nat)
    (h : array pv f s = .ok a r) : array pv' f (s ++ x) = .ok a (r ++ x) := by
  rw [array] at h
  rw [array]
  cases h1 : eat 0x5B (skip_control_chars s) with
  | ok u s₁ =>
      rw [h1, POut.bind_ok] at h
      obtain ⟨b, t, hbt⟩ : ∃ b t, skip_control_chars s = b :: t := by
        cases hcc : skip_control_chars s with
        | nil => rw [hcc, eat] at h1; cases h1
        | cons b t => exact ⟨b, t, rfl⟩
      rw [ext_skipCC s x b t hbt]
      rw [hbt] at h1
      have h1' := ext_eat 0x5B (b :: t) x u s₁ h1
      rw [List.cons_append] at h1'
      rw [h1', POut.bind_ok]
      cases h2 : array_values pv f (skip_control_chars s₁) with
      | ok vs s₂ =>
          rw [h2, POut.bind_ok] at h
          obtain ⟨b₁, t₁, hbt₁⟩ : ∃ b₁ t₁, skip_control_chars s₁ = b₁ :: t₁ := by
            cases hcc : skip_control_chars s₁ with
            | nil => rw [hcc, array_values] at h2; cases h2
            | cons b₁ t₁ => exact ⟨b₁, t₁, rfl⟩
          rw [ext_skipCC s₁ x b₁ t₁ hbt₁]
          rw [hbt₁] at h2
          have h2' := ext_array_values pv pv' hpv f (b₁ :: t₁) x vs s₂ h2
          rw [List.cons_append] at h2'
          rw [h2', POut.bind_ok]
          cases h3 : eat 0x5D (skip_control_chars s₂) with
          | ok u' s₃ =>
              rw [h3, POut.bind_ok] at h
              cases h
              obtain ⟨b₂, t₂, hbt₂⟩ : ∃ b₂ t₂, skip_control_chars s₂ = b₂ :: t₂ := by
                cases hcc : skip_control_chars s₂ with
                | nil => rw [hcc, eat] at h3; cases h3
                | cons b₂ t₂ => exact ⟨b₂, t₂, rfl⟩
              rw [ext_skipCC s₂ x b₂ t₂ hbt₂]
              rw [hbt₂] at h3
              have h3' := ext_eat 0x5D (b₂ :: t₂) x u' _ h3
              rw [List.cons_append] at h3'
              rw [h3', POut.bind_ok]
          | err e => rw [h3] at h; cases h
          | panicked => rw [h3] at h; cases h
          | spin => rw [h3] at h; cases h
      | err e => rw [h2] at h; cases h
      | panicked => rw [h2] at h; cases h
      | spin => rw [h2] at h; cases h
  | err e => rw [h1] at h; cases h
  | panicked => rw [h1] at h; cases h
  | spin => rw [h1] at h; cases h

/-- `object` extends, parametrically in the value parser. -/
theorem ext_object (pv pv' : List Nat → POut JSONValue)
    (hpv : ∀ s x v r, pv s = .ok v r → r ≠ [] → pv' (s ++ x) = .ok v (r ++ x))
    (f : Nat) (s x : List Nat) (a : JSONValue) (r : List Nat)
    (h : object pv f s = .ok a r) : object pv' f (s ++ x) = .ok a (r ++ x) := by
  rw [object] at h
  rw [object]
  cases h1 : eat 0x7B (skip_control_chars s) with
  | ok u s₁ =>
      rw [h1, POut.bind_ok] at h
      obtain ⟨b, t, hbt⟩ : ∃ b t, skip_control_chars s = b :: t := by
        cases hcc : skip_control_chars s with
        | nil => rw [hcc, eat] at h1; cases h1
        | cons b t => exact ⟨b, t, rfl⟩
      rw [ext_skipCC s x b t hbt]
      rw [hbt] at h1
      have h1' := ext_eat 0x7B (b :: t) x u s₁ h1
      rw [List.cons_append] at h1'
      rw [h1', POut.bind_ok]
      cases h2 : object_fields pv f (skip_control_chars s₁) with
      | ok fs s₂ =>
          rw [h2, POut.bind_ok] at h
          obtain ⟨b₁, t₁, hbt₁⟩ : ∃ b₁ t₁, skip_control_chars s₁ = b₁ :: t₁ := by
            cases hcc : skip_control_chars s₁ with
            | nil => rw [hcc, object_fields] at h2; cases h2
            | cons b₁ t₁ => exact ⟨b₁, t₁, rfl⟩
          rw [ext_skipCC s₁ x b₁ t₁ hbt₁]
          rw [hbt₁] at h2
          have h2' := ext_object_fields pv pv' hpv f (b₁ :: t₁) x fs s₂ h2
          rw [List.cons_append] at h2'
          rw [h2', POut.bind_ok]
          cases h3 : eat 0x7D (skip_control_chars s₂) with
          | ok u' s₃ =>
              rw [h3, POut.bind_ok] at h
              cases h
              obtain ⟨b₂, t₂, hbt₂⟩ : ∃ b₂ t₂, skip_control_chars s₂ = b₂ :: t₂ := by
                cases hcc : skip_control_chars s₂ with
                | nil => rw [hcc, eat] at h3; cases h3
                | cons b₂ t₂ => exact ⟨b₂, t₂, rfl⟩
              rw [ext_skipCC s₂ x b₂ t₂ hbt₂]
              rw [hbt₂] at h3
              have h3' := ext_eat 0x7D (b₂ :: t₂) x u' _ h3
              rw [List.cons_append] at h3'
              rw [h3', POut.bind_ok]
          | err e => rw [h3] at h; cases h
          | panicked => rw [h3] at h; cases h
          | spin => rw [h3] at h; cases h
      | err e => rw [h2] at h; cases h
      | panicked => rw [h2] at h; cases h
      | spin => rw [h2] at h; cases h
  | err e => rw [h1] at h; cases h
  | panicked => rw [h1] at h; cases h
  | spin => rw [h1] at h; cases h

/-- `value` extends whenever it stopped with input left over. -/
theorem ext_value (f : Nat) : ∀ (s x : List Nat) (v : JSONValue) (r : List Nat),
    value f s = .ok v r → r ≠ [] → value f (s ++ x) = .ok v (r ++ x) := by
  induction f with
  | zero =>
      intro s x v r h hr
      rw [value] at h
      cases h
  | succ f ih =>
      intro s x v r h hr
      rw [value_succ] at h
      cases hcc : skip_control_chars s with
      | nil => rw [hcc] at h; dsimp only at h; cases h
      | cons b t =>
          rw [hcc] at h
          dsimp only at h
          rw [value_succ, ext_skipCC s x b t hcc]
          dsimp only
          by_cases h1 : (isDigitB b || b = 0x2D) = true
          · rw [if_pos h1] at h ⊢
            cases hn : number (b :: t) with
            | ok v₀ r₀ =>
                rw [hn, POut.bind_ok] at h
                cases h
                have hr₀ : r₀ ≠ [] := by
                  intro he
                  subst he
                  exact hr rfl
                have hne := ext_number (b :: t) x _ r₀ hn hr₀
                rw [List.cons_append] at hne
                rw [hne, POut.bind_ok, trailing_ext r₀ x hr]
            | err e => rw [hn] at h; cases h
            | panicked => rw [hn] at h; cases h
            | spin => rw [hn] at h; cases h
          · rw [if_neg h1] at h ⊢
            by_cases h2 : b = 0x74
            · rw [if_pos h2] at h ⊢
              cases hn : eat_str trueLit (b :: t) with
              | ok u r₀ =>
                  rw [hn, POut.bind_ok, POut.bind_ok] at h
                  cases h
                  have he := ext_eat_str trueLit (b :: t) x u r₀ hn
                  rw [List.cons_append] at he
                  rw [he, POut.bind_ok, POut.bind_ok, trailing_ext r₀ x hr]
              | err e => rw [hn] at h; cases h
              | panicked => rw [hn] at h; cases h
              | spin => rw [hn] at h; cases h
            · rw [if_neg h2] at h ⊢
              by_cases h3 : b = 0x66
              · rw [if_pos h3] at h ⊢
                cases hn : eat_str falseLit (b :: t) with
                | ok u r₀ =>
                    rw [hn, POut.bind_ok, POut.bind_ok] at h
                    cases h
                    have he := ext_eat_str falseLit (b :: t) x u r₀ hn
                    rw [List.cons_append] at he
                    rw [he, POut.bind_ok, POut.bind_ok, trailing_ext r₀ x hr]
                | err e => rw [hn] at h; cases h
                | panicked => rw [hn] at h; cases h
                | spin => rw [hn] at h; cases h
              · rw [if_neg h3] at h ⊢
                by_cases h4 : b = 0x6E
                · rw [if_pos h4] at h ⊢
                  cases hn : eat_str nullLit (b :: t) with
                  | ok u r₀ =>
                      rw [hn, POut.bind_ok, POut.bind_ok] at h
                      cases h
                      have he := ext_eat_str nullLit (b :: t) x u r₀ hn
                      rw [List.cons_append] at he
                      rw [he, POut.bind_ok, POut.bind_ok, trailing_ext r₀ x hr]
                  | err e => rw [hn] at h; cases h
                  | panicked => rw [hn] at h; cases h
                  | spin => rw [hn] at h; cases h
                · rw [if_neg h4] at h ⊢
                  by_cases h5 : b = 0x22
                  · rw [if_pos h5] at h ⊢
                    cases hn : text (b :: t) with
                    | ok v₀ r₀ =>
                        rw [hn, POut.bind_ok] at h
                        cases h
                        have he := ext_text (b :: t) x _ r₀ hn
                        rw [List.cons_append] at he
                        rw [he, POut.bind_ok, trailing_ext r₀ x hr]
                    | err e => rw [hn] at h; cases h
                    | panicked => rw [hn] at h; cases h
                    | spin => rw [hn] at h; cases h
                  · rw [if_neg h5] at h ⊢
                    by_cases h6 : b = 0x5B
                    · rw [if_pos h6] at h ⊢
                      cases hn : array (value f) f (b :: t) with
                      | ok v₀ r₀ =>
                          rw [hn, POut.bind_ok] at h
                          cases h
                          have he := ext_array (value f) (value f) (ih) f (b :: t) x _ r₀ hn
                          rw [List.cons_append] at he
                          rw [he, POut.bind_ok, trailing_ext r₀ x hr]
                      | err e => rw [hn] at h; cases h
                      | panicked => rw [hn] at h; cases h
                      | spin => rw [hn] at h; cases h
                    · rw [if_neg h6] at h ⊢
                      by_cases h7 : b = 0x7B
                      · rw [if_pos h7] at h ⊢
                        cases hn : object (value f) f (b :: t) with
                        | ok v₀ r₀ =>
                            rw [hn, POut.bind_ok] at h
                            cases h
                            have he := ext_object (value f) (value f) (ih) f (b :: t) x _ r₀ hn
                            rw [List.cons_append] at he
                            rw [he, POut.bind_ok, trailing_ext r₀ x hr]
                        | err e => rw [hn] at h; cases h
                        | panicked => rw [hn] at h; cases h
                        | spin => rw [hn] at h; cases h
                      · rw [if_neg h7] at h
                        rw [POut.bind_err] at h
                        cases h

/-- `value` on a root `Object`/`Array` extends even when the trailing
skips ran to the end of the input. -/
theorem ext_value_root (f : Nat) (s x : List Nat) (v : JSONValue) (r : List Nat)
    (h : value f s = .ok v r) (hroot : isRootValue v = true) :
    ∃ q, value f (s ++ x) = .ok v q := by
  cases f with
  | zero => rw [value] at h; cases h
  | succ f =>
      rw [value_succ] at h
      cases hcc : skip_control_chars s with
      | nil => rw [hcc] at h; dsimp only at h; cases h
      | cons b t =>
          rw [hcc] at h
          dsimp only at h
          rw [value_succ, ext_skipCC s x b t hcc]
          dsimp only
          by_cases h1 : (isDigitB b || b = 0x2D) = true
          · rw [if_pos h1] at h
            cases hn : number (b :: t) with
            | ok v₀ r₀ =>
                rw [hn, POut.bind_ok] at h
                cases h
                obtain ⟨n, hn'⟩ := number_shape _ _ _ hn
                rw [hn'] at hroot
                simp [isRootValue] at hroot
            | err e => rw [hn] at h; cases h
            | panicked => rw [hn] at h; cases h
            | spin => rw [hn] at h; cases h
          · rw [if_neg h1] at h ⊢
            by_cases h2 : b = 0x74
            · rw [if_pos h2] at h
              cases hn : eat_str trueLit (b :: t) with
              | ok u r₀ =>
                  rw [hn, POut.bind_ok, POut.bind_ok] at h
                  cases h
                  simp [isRootValue] at hroot
              | err e => rw [hn] at h; cases h
              | panicked => rw [hn] at h; cases h
              | spin => rw [hn] at h; cases h
            · rw [if_neg h2] at h ⊢
              by_cases h3 : b = 0x66
              · rw [if_pos h3] at h
                cases hn : eat_str falseLit (b :: t) with
                | ok u r₀ =>
                    rw [hn, POut.bind_ok, POut.bind_ok] at h
                    cases h
                    simp [isRootValue] at hroot
                | err e => rw [hn] at h; cases h
                | panicked => rw [hn] at h; cases h
                | spin => rw [hn] at h; cases h
              · rw [if_neg h3] at h ⊢
                by_cases h4 : b = 0x6E
                · rw [if_pos h4] at h
                  cases hn : eat_str nullLit (b :: t) with
                  | ok u r₀ =>
                      rw [hn, POut.bind_ok, POut.bind_ok] at h
                      cases h
                      simp [isRootValue] at hroot
                  | err e => rw [hn] at h; cases h
                  | panicked => rw [hn] at h; cases h
                  | spin => rw [hn] at h; cases h
                · rw [if_neg h4] at h ⊢
                  by_cases h5 : b = 0x22
                  · rw [if_pos h5] at h
                    cases hn : text (b :: t) with
                    | ok v₀ r₀ =>
                        rw [hn, POut.bind_ok] at h
                        cases h
                        obtain ⟨st, hst⟩ := text_shape _ _ _ hn
                        rw [hst] at hroot
                        simp [isRootValue] at hroot
                    | err e => rw [hn] at h; cases h
                    | panicked => rw [hn] at h; cases h
                    | spin => rw [hn] at h; cases h
                  · rw [if_neg h5] at h ⊢
                    by_cases h6 : b = 0x5B
                    · rw [if_pos h6] at h ⊢
                      cases hn : array (value f) f (b :: t) with
                      | ok v₀ r₀ =>
                          rw [hn, POut.bind_ok] at h
                          cases h
                          have he := ext_array (value f) (value f) (ext_value f) f
                            (b :: t) x _ r₀ hn
                          rw [List.cons_append] at he
                          exact ⟨_, by rw [he, POut.bind_ok]⟩
                      | err e => rw [hn] at h; cases h
                      | panicked => rw [hn] at h; cases h
                      | spin => rw [hn] at h; cases h
                    · rw [if_neg h6] at h ⊢
                      by_cases h7 : b = 0x7B
                      · rw [if_pos h7] at h ⊢
                        cases hn : object (value f) f (b :: t) with
                        | ok v₀ r₀ =>
                            rw [hn, POut.bind_ok] at h
                            cases h
                            have he := ext_object (value f) (value f) (ext_value f) f
                              (b :: t) x _ r₀ hn
                            rw [List.cons_append] at he
                            exact ⟨_, by rw [he, POut.bind_ok]⟩
                        | err e => rw [hn] at h; cases h
                        | panicked => rw [hn] at h; cases h
                        | spin => rw [hn] at h; cases h
                      · rw [if_neg h7] at h
                        rw [POut.bind_err] at h
                        cases h

/-- `object_field` is monotone in the value parser. -/
theorem mono_object_field (pv pv' : List Nat → POut JSONValue)
    (hpv : ∀ s v r, pv s = .ok v r → pv' s = .ok v r)
    (s : List Nat) (kv : List Nat × JSONValue) (r : List Nat)
    (h : object_field pv s = .ok kv r) : object_field pv' s = .ok kv r := by
  rw [object_field] at h
  rw [object_field]
  cases h1 : string (skip_control_chars s) with
  | ok k s₁ =>
      rw [h1, POut.bind_ok] at h
      rw [POut.bind_ok]
      cases h2 : eat 0x3A (skip_control_chars s₁) with
      | ok u s₂ =>
          rw [h2, POut.bind_ok] at h
          rw [POut.bind_ok]
          cases h3 : pv s₂ with
          | ok v s₃ =>
              rw [h3, POut.bind_ok] at h
              rw [hpv s₂ v s₃ h3, POut.bind_ok]
              exact h
          | err e => rw [h3] at h; cases h
          | panicked => rw [h3] at h; cases h
          | spin => rw [h3] at h; cases h
      | err e => rw [h2] at h; cases h
      | panicked => rw [h2] at h; cases h
      | spin => rw [h2] at h; cases h
  | err e => rw [h1] at h; cases h
  | panicked => rw [h1] at h; cases h
  | spin => rw [h1] at h; cases h

/-- The element loop is monotone in the value parser and its fuel. -/
theorem mono_array_values_go (pv pv' : List Nat → POut JSONValue)
    (hpv : ∀ s v r, pv s = .ok v r → pv' s = .ok v r) :
    ∀ (g g' : Nat), g ≤ g' →
      ∀ (acc : List JSONValue) (s : List Nat) (l : List JSONValue) (r : List Nat),
        array_values_go pv g acc s = .ok l r → array_values_go pv' g' acc s = .ok l r := by
  intro g
  induction g with
  | zero => intro g' hg acc s l r h; rw [array_values_go] at h; cases h
  | succ g ih =>
      intro g' hg acc s l r h
      obtain ⟨g'', rfl⟩ : ∃ g'', g' = g'' + 1 := ⟨g' - 1, by omega⟩
      rw [array_values_go_succ] at h
      rw [array_values_go_succ]
      cases h1 : pv s with
      | ok v s₁ =>
          rw [h1, POut.bind_ok] at h
          rw [hpv s v s₁ h1, POut.bind_ok]
          cases hcc : skip_control_chars s₁ with
          | nil => rw [hcc] at h; cases h
          | cons b t =>
              rw [hcc] at h
              dsimp only at h ⊢
              by_cases hb : b = 0x5D
              · rw [if_pos hb] at h ⊢
                exact h
              · rw [if_neg hb] at h ⊢
                exact ih g'' (by omega) (acc ++ [v]) (b :: t) l r h
      | err e => rw [h1] at h; cases h
      | panicked => rw [h1] at h; cases h
      | spin => rw [h1] at h; cases h

/-- The field loop is monotone in the value parser and its fuel. -/
theorem mono_object_fields_go (pv pv' : List Nat → POut JSONValue)
    (hpv : ∀ s v r, pv s = .ok v r → pv' s = .ok v r) :
    ∀ (g g' : Nat), g ≤ g' →
      ∀ (acc : List (List Nat × JSONValue)) (s : List Nat)
        (l : List (List Nat × JSONValue)) (r : List Nat),
        object_fields_go pv g acc s = .ok l r → object_fields_go pv' g' acc s = .ok l r := by
  intro g
  induction g with
  | zero => intro g' hg acc s l r h; rw [object_fields_go] at h; cases h
  | succ g ih =>
      intro g' hg acc s l r h
      obtain ⟨g'', rfl⟩ : ∃ g'', g' = g'' + 1 := ⟨g' - 1, by omega⟩
      rw [object_fields_go_succ] at h
      rw [object_fields_go_succ]
      cases h1 : object_field pv s with
      | ok kv s₁ =>
          rw [h1, POut.bind_ok] at h
          rw [mono_object_field pv pv' hpv s kv s₁ h1, POut.bind_ok]
          cases hcc : skip_control_chars s₁ with
          | nil => rw [hcc] at h; cases h
          | cons b t =>
              rw [hcc] at h
              dsimp only at h ⊢
              by_cases hb : b = 0x7D
              · rw [if_pos hb] at h ⊢
                exact h
              · rw [if_neg hb] at h ⊢
                exact ih g'' (by omega) (insertField acc kv.1 kv.2) (b :: t) l r h
      | err e => rw [h1] at h; cases h
      | panicked => rw [h1] at h; cases h
      | spin => rw [h1] at h; cases h

/-- `array_values` is monotone in the value parser and its fuel. -/
theorem mono_array_values (pv pv' : List Nat → POut JSONValue)
    (hpv : ∀ s v r, pv s = .ok v r → pv' s = .ok v r)
    (g g' : Nat) (hg : g ≤ g') (s : List Nat) (l : List JSONValue) (r : List Nat)
    (h : array_values pv g s = .ok l r) : array_values pv' g' s = .ok l r := by
  cases s with
  | nil => rw [array_values] at h; cases h
  | cons b t =>
      rw [array_values.eq_def] at h
      rw [array_values.eq_def]
      dsimp only at h ⊢
      by_cases hb : b = 0x5D
      · rw [if_pos hb] at h ⊢
        exact h
      · rw [if_neg hb] at h ⊢
        exact mono_array_values_go pv pv' hpv g g' hg [] (b :: t) l r h

/-- `object_fields` is monotone in the value parser and its fuel. -/
theorem mono_object_fields (pv pv' : List Nat → POut JSONValue)
    (hpv : ∀ s v r, pv s = .ok v r → pv' s = .ok v r)
    (g g' : Nat) (hg : g ≤ g') (s : List Nat) (l : List (List Nat × JSONValue))
    (r : List Nat) (h : object_fields pv g s = .ok l r) :
    object_fields pv' g' s = .ok l r := by
  cases s with
  | nil => rw [object_fields] at h; cases h
  | cons b t =>
      rw [object_fields.eq_def] at h
      rw [object_fields.eq_def]
      dsimp only at h ⊢
      by_cases hb : b = 0x7D
      · rw [if_pos hb] at h ⊢
        exact h
      · rw [if_neg hb] at h ⊢
        exact mono_object_fields_go pv pv' hpv g g' hg [] (b :: t) l r h

/-- `array` is monotone in the value parser and its fuel. -/
theorem mono_array (pv pv' : List Nat → POut JSONValue)
    (hpv : ∀ s v r, pv s = .ok v r → pv' s = .ok v r)
    (g g' : Nat) (hg : g ≤ g') (s : List Nat) (a : JSONValue) (r : List Nat)
    (h : array pv g s = .ok a r) : array pv' g' s = .ok a r := by
  rw [array] at h
  rw [array]
  cases h1 : eat 0x5B (skip_control_chars s) with
  | ok u s₁ =>
      rw [h1, POut.bind_ok] at h
      rw [POut.bind_ok]
      cases h2 : array_values pv g (skip_control_chars s₁) with
      | ok vs s₂ =>
          rw [h2, POut.bind_ok] at h
          rw [mono_array_values pv pv' hpv g g' hg _ vs s₂ h2, POut.bind_ok]
          exact h
      | err e => rw [h2] at h; cases h
      | panicked => rw [h2] at h; cases h
      | spin => rw [h2] at h; cases h
  | err e => rw [h1] at h; cases h
  | panicked => rw [h1] at h; cases h
  | spin => rw [h1] at h; cases h

/-- `object` is monotone in the value parser and its fuel. -/
theorem mono_object (pv pv' : List Nat → POut JSONValue)
    (hpv : ∀ s v r, pv s = .ok v r → pv' s = .ok v r)
    (g g' : Nat) (hg : g ≤ g') (s : List Nat) (a : JSONValue) (r : List Nat)
    (h : object pv g s = .ok a r) : object pv' g' s = .ok a r := by
  rw [object] at h
  rw [object]
  cases h1 : eat 0x7B (skip_control_chars s) with
  | ok u s₁ =>
      rw [h1, POut.bind_ok] at h
      rw [POut.bind_ok]
      cases h2 : object_fields pv g (skip_control_chars s₁) with
      | ok fs s₂ =>
          rw [h2, POut.bind_ok] at h
          rw [mono_object_fields pv pv' hpv g g' hg _ fs s₂ h2, POut.bind_ok]
          exact h
      | err e => rw [h2] at h; cases h
      | panicked => rw [h2] at h; cases h
      | spin => rw [h2] at h; cases h
  | err e => rw [h1] at h; cases h
  | panicked => rw [h1] at h; cases h
  | spin => rw [h1] at h; cases h

/-- `value` is monotone in fuel: any successful run succeeds identically
with more fuel. -/
theorem mono_value : ∀ (f f' : Nat), f ≤ f' → ∀ (s : List Nat) (v : JSONValue)
    (r : List Nat), value f s = .ok v r → value f' s = .ok v r := by
  intro f
  induction f with
  | zero => intro f' hf s v r h; rw [value] at h; cases h
  | succ f ih =>
      intro f' hf s v r h
      obtain ⟨f'', rfl⟩ : ∃ f'', f' = f'' + 1 := ⟨f' - 1, by omega⟩
      have hf'' : f ≤ f'' := by omega
      rw [value_succ] at h
      rw [value_succ]
      cases hcc : skip_control_chars s with
      | nil => rw [hcc] at h; exact h
      | cons b t =>
          rw [hcc] at h
          dsimp only at h ⊢
          by_cases h1 : (isDigitB b || b = 0x2D) = true
          · rw [if_pos h1] at h ⊢
            exact h
          · rw [if_neg h1] at h ⊢
            by_cases h2 : b = 0x74
            · rw [if_pos h2] at h ⊢
              exact h
            · rw [if_neg h2] at h ⊢
              by_cases h3 : b = 0x66
              · rw [if_pos h3] at h ⊢
                exact h
              · rw [if_neg h3] at h ⊢
                by_cases h4 : b = 0x6E
                · rw [if_pos h4] at h ⊢
                  exact h
                · rw [if_neg h4] at h ⊢
                  by_cases h5 : b = 0x22
                  · rw [if_pos h5] at h ⊢
                    exact h
                  · rw [if_neg h5] at h ⊢
                    by_cases h6 : b = 0x5B
                    · rw [if_pos h6] at h ⊢
                      cases hn : array (value f) f (b :: t) with
                      | ok v₀ r₀ =>
                          rw [hn, POut.bind_ok] at h
                          rw [mono_array (value f) (value f'') (fun s v r => ih f'' hf'' s v r)
                            f f'' hf'' (b :: t) v₀ r₀ hn, POut.bind_ok]
                          exact h
                      | err e => rw [hn] at h; cases h
                      | panicked => rw [hn] at h; cases h
                      | spin => rw [hn] at h; cases h
                    · rw [if_neg h6] at h ⊢
                      by_cases h7 : b = 0x7B
                      · rw [if_pos h7] at h ⊢
                        cases hn : object (value f) f (b :: t) with
                        | ok v₀ r₀ =>
                            rw [hn, POut.bind_ok] at h
                            rw [mono_object (value f) (value f'')
                              (fun s v r => ih f'' hf'' s v r) f f'' hf'' (b :: t) v₀ r₀ hn,
                              POut.bind_ok]
                            exact h
                        | err e => rw [hn] at h; cases h
                        | panicked => rw [hn] at h; cases h
                        | spin => rw [hn] at h; cases h
                      · rw [if_neg h7] at h ⊢
                        exact h

/-- Inverting a successful `parse`: the underlying `value` run and the
root-variant fact. -/
theorem parse_ok_inv (s : List Nat) (v : JSONValue) (r : List Nat)
    (h : parse s = .ok v r) :
    value (fuelFor s) s = .ok v r ∧ isRootValue v = true := by
  rw [parse] at h
  cases hv : value (fuelFor s) s with
  | ok a r' =>
      rw [hv] at h
      cases a <;> dsimp only at h <;> cases h <;> exact ⟨rfl, rfl⟩
  | err e => rw [hv] at h; cases h
  | panicked => rw [hv] at h; cases h
  | spin => rw [hv] at h; cases h

/-- C10 (confirmed): the entry point does not require the whole input to
be consumed.  If an input parses to a root value, then that input with any
bytes appended still parses successfully to the same root value, the
appended bytes being silently ignored; concretely, `[1] xyz` parses to
`Array [Number 1]` with `xyz` left over. -/
theorem parse_ignores_trailing_bytes :
    (∀ (s x : List Nat) (v : JSONValue) (r : List Nat),
      parse s = .ok v r → ∃ q, parse (s ++ x) = .ok v q) ∧
    parse [0x5B, 0x31, 0x5D, 0x20, 0x78, 0x79, 0x7A]
      = .ok (.array [.number ⟨1, 0⟩]) [0x78, 0x79, 0x7A] := by
  refine ⟨?_, rfl⟩
  intro s x v r h
  obtain ⟨hv, hroot⟩ := parse_ok_inv s v r h
  obtain ⟨q, hv'⟩ := ext_value_root (fuelFor s) s x v r hv hroot
  have hmono : value (fuelFor (s ++ x)) (s ++ x) = .ok v q :=
    mono_value (fuelFor s) (fuelFor (s ++ x)) (by simp only [fuelFor, List.length_append]; omega) (s ++ x) v q hv'
  refine ⟨q, ?_⟩
  rw [parse, hmono]
  cases v with
  | object fs => rfl
  | array vs => rfl
  | bool b => simp [isRootValue] at hroot
  | text st => simp [isRootValue] at hroot
  | number n => simp [isRootValue] at hroot
  | null => simp [isRootValue] at hroot

/-- Witness for C10 at the prefix `[]` with `xyz` appended. -/
theorem parse_ignores_trailing_bytes_witness :
    ∃ q, parse ([0x5B, 0x5D] ++ [0x78, 0x79, 0x7A]) = .ok (.array []) q :=
  parse_ignores_trailing_bytes.1 [0x5B, 0x5D] [0x78, 0x79, 0x7A] (.array []) [] rfl

/-- Witness for C7 at the array `[1]` (rendered `[1,]` and `[1]`). -/
theorem empty_and_trailing_comma_witness :
    okJV (JV.jarr (.cons (.jnum 1) .nil)) = true ∧
    isRootJV (JV.jarr (.cons (.jnum 1) .nil)) = true ∧
    parse (renderJV true (JV.jarr (.cons (.jnum 1) .nil)))
      = parse (renderJV false (JV.jarr (.cons (.jnum 1) .nil))) ∧
    parse (renderJV false (JV.jarr (.cons (.jnum 1) .nil)))
      = .ok (embedJV (JV.jarr (.cons (.jnum 1) .nil))) [] :=
  ⟨rfl, rfl, (empty_and_trailing_comma.2.2 (JV.jarr (.cons (.jnum 1) .nil)) rfl rfl).1,
    (empty_and_trailing_comma.2.2 (JV.jarr (.cons (.jnum 1) .nil)) rfl rfl).2⟩

end Cibola
